import Mathlib

/-!
Shallow embedding of the `ai-sdk-graph` resumable workflow engine
(`CompiledGraph` in `compiled-graph.ts`, the `Graph` builder, the checkpoint
storage contract and the middleware composition helper), together with
theorems settling the claims about its specification.

Modelling conventions:
* The engine's host-language effects (storage I/O and emitted stream events)
  are threaded explicitly through a `World` value; `await`-sequencing in the
  source corresponds to data-flow sequencing here.
* `State` and partial-update payloads are type parameters `σ` and `π`, with
  the object-spread merge `{...state, ...update}` an explicit `merge`
  parameter of the engine configuration.
* Node bodies are deterministic scripts: from the state observed at entry a
  body yields the list of `update()` calls it issues (each flagged with
  whether the body itself awaits the returned handle) and whether it finishes
  or raises the Suspense signal.  Batch execution serialises the bodies in
  frontier order, the canonical schedule of the single-threaded host runtime.
* Graph/node/event middleware chains are compiled empty (the source falls
  into its no-middleware branches); the state-middleware chain, which the
  claims exercise, is modelled in full.
-/

namespace GraphSDK

/-- Node identifiers (`NodeKeys` in the source are string literal types). -/
abbrev NodeId := String

/-- Payload carried by a `SuspenseError`.  `subgraphSuspended` mirrors the
literal `{ type: 'subgraph-suspended' }` thrown by
`handleBatchResultWithStrategy` in `throw` mode. -/
inductive SuspenseData where
  | noData
  | payload (n : Int)
  | subgraphSuspended
deriving Repr, DecidableEq

/-- `StateUpdate<State> = Partial<State> | ((state: State) => Partial<State>)`,
modelled as a tagged variant (the source discriminates with `typeof`). -/
inductive StateUpdate (σ π : Type) where
  | lit : π → StateUpdate σ π
  | func : (σ → π) → StateUpdate σ π

/-- `typeof update === 'function' ? update(state) : update`. -/
def StateUpdate.resolve {σ π : Type} : StateUpdate σ π → σ → π
  | .lit p, _ => p
  | .func f, s => f s

/-- One `update(...)` call issued by a node body.  `awaited` records whether
the body awaits the returned promise; the engine pushes the promise to its
per-invocation `pendingUpdates` list either way. -/
structure UpdateCall (σ π : Type) where
  upd : StateUpdate σ π
  awaited : Bool

/-- How a node body ends: normal completion, or `suspense(data)` raising the
Suspense signal. -/
inductive BodyOutcome where
  | done
  | suspend (d : SuspenseData)

/-- A node body: from the state observed at entry, the `update()` calls it
issues (in program order) and how it ends. -/
structure NodeBody (σ π : Type) where
  run : σ → List (UpdateCall σ π) × BodyOutcome

/-- `GraphSDK.Node`: unique id plus execution body. -/
structure Node (σ π : Type) where
  id : NodeId
  body : NodeBody σ π

/-- Edge target: `NodeKeys | ((state: State) => NodeKeys)`. -/
inductive EdgeTarget (σ : Type) where
  | static (id : NodeId)
  | dynamic (f : σ → NodeId)

/-- `typeof edge.to === 'function' ? edge.to(state) : edge.to`. -/
def EdgeTarget.resolve {σ : Type} : EdgeTarget σ → σ → NodeId
  | .static i, _ => i
  | .dynamic f, s => f s

/-- `GraphSDK.Edge`: directed, one origin, static or dynamic target. -/
structure Edge (σ : Type) where
  fromId : NodeId
  toTarget : EdgeTarget σ

/-- A compiled graph: node registry, edge registry, and subgraph registry
binding a node id to `(input, output, child)`.  The child graph's state type
is instantiated to the parent's (the source is untyped-heterogeneous; the
claims do not depend on heterogeneity). -/
inductive GraphDef (σ π : Type) : Type where
  | mk (nodes : List (Node σ π)) (edges : List (Edge σ))
       (subs : List (NodeId × (σ → σ) × (σ → σ → π) × GraphDef σ π))

def GraphDef.nodes {σ π : Type} : GraphDef σ π → List (Node σ π)
  | .mk ns _ _ => ns

def GraphDef.edges {σ π : Type} : GraphDef σ π → List (Edge σ)
  | .mk _ es _ => es

def GraphDef.subs {σ π : Type} :
    GraphDef σ π → List (NodeId × (σ → σ) × (σ → σ → π) × GraphDef σ π)
  | .mk _ _ ss => ss

/-- `nodeRegistry.get(id)`. -/
def lookupNode {σ π : Type} (g : GraphDef σ π) (id : NodeId) : Option (Node σ π) :=
  g.nodes.find? (fun n => n.id == id)

/-- `edgeRegistry.get(nodeId) ?? []` (edges are appended in registration
order, so the filter preserves that order). -/
def edgesFrom {σ π : Type} (g : GraphDef σ π) (id : NodeId) : List (Edge σ) :=
  g.edges.filter (fun e => e.fromId == id)

/-- `subgraphRegistry.get(id)`. -/
def lookupSub {σ π : Type} (g : GraphDef σ π) (id : NodeId) :
    Option ((σ → σ) × (σ → σ → π) × GraphDef σ π) :=
  (g.subs.find? (fun e => e.1 == id)).map (·.2)

/-- `GraphSDK.Checkpoint`: state snapshot plus the two node-id lists.  The
lists are `Option`-wrapped because a persisted blob of another lineage or a
hand-written checkpoint may omit them (`checkpoint?.nodeIds != null` in the
source guards exactly this). -/
structure Checkpoint (σ : Type) where
  state : σ
  nodeIds : Option (List NodeId)
  suspendedNodes : Option (List NodeId)
deriving Repr, DecidableEq

/-- `InMemoryStorage`: a key → checkpoint map, keyed by run id. -/
abbrev Storage (σ : Type) := List (String × Checkpoint σ)

/-- `load(runId) → checkpoint | null`. -/
def Storage.load {σ : Type} (st : Storage σ) (runId : String) : Option (Checkpoint σ) :=
  (st.find? (fun kv => kv.1 == runId)).map (·.2)

/-- `save(runId, checkpoint)` (`Map.set`: replaces any previous entry). -/
def Storage.save {σ : Type} (st : Storage σ) (runId : String) (cp : Checkpoint σ) :
    Storage σ :=
  (runId, cp) :: st.filter (fun kv => kv.1 != runId)

/-- `delete(runId)`. -/
def Storage.del {σ : Type} (st : Storage σ) (runId : String) : Storage σ :=
  st.filter (fun kv => kv.1 != runId)

/-- Events written to the engine's sink: the `data-state`, `data-node-start`,
`data-node-end`, `data-node-suspense` writes, plus the `onStart` compile
callback firing (observable at the interface). -/
inductive Ev (σ : Type) where
  | stateChanged (s : σ)
  | nodeStart (id : NodeId)
  | nodeEnd (id : NodeId)
  | nodeSuspense (id : NodeId) (d : SuspenseData)
  | onStartCallback
deriving Repr, DecidableEq

/-- The engine's effect world: checkpoint storage plus the chronological
trace of emitted events. -/
structure World (σ : Type) where
  storage : Storage σ
  trace : List (Ev σ)
deriving Repr, DecidableEq

/-- Emit one event (append to the chronological trace). -/
def World.emit {σ : Type} (w : World σ) (e : Ev σ) : World σ :=
  { w with trace := w.trace ++ [e] }

/-! ### Middleware composition (`composeMiddleware` in `middleware.ts`) -/

/-- The `dispatch(i)` recursion: interceptor `i` receives a `next` bound to
`dispatch(i+1)`, the terminal `action` runs once the list is exhausted. -/
def dispatchFrom {Ctx R : Type} (action : Ctx → R) (ctx : Ctx) :
    List (Ctx → (Unit → R) → R) → R
  | [] => action ctx
  | mw :: rest => mw ctx (fun _ => dispatchFrom action ctx rest)

/-- `composeMiddleware(middlewares, action)`. -/
def composeMiddleware {Ctx R : Type} (mws : List (Ctx → (Unit → R) → R))
    (action : Ctx → R) : Ctx → R :=
  fun ctx => dispatchFrom action ctx mws

/-- `GraphSDK.StateMiddlewareContext`. -/
structure StateMwCtx (σ π : Type) where
  runId : String
  nodeId : Option NodeId
  currentState : σ
  update : StateUpdate σ π
  resolvedUpdate : π

/-- A state-middleware interceptor: receives the context and `next`, must
yield the update payload actually merged. -/
abbrev StateMw (σ π : Type) := StateMwCtx σ π → (Unit → π) → π

/-- Engine configuration: the host object-spread merge and the compiled
state-middleware chain (in registration order; the first entry is the
outermost layer). -/
structure EngineCfg (σ π : Type) where
  merge : σ → π → σ
  stateMw : List (StateMw σ π)

/-- `StateManager.apply`: `{...state, ...(fn ? update(state) : update)}`. -/
def StateManager.apply {σ π : Type} (cfg : EngineCfg σ π) (s : σ)
    (u : StateUpdate σ π) : σ :=
  cfg.merge s (u.resolve s)

/-- The body of the `update(...)` closure built by
`createNodeExecutionParams` (and the subgraph output merge): when state
middleware is registered, resolve the raw update, run the chain with
terminal `ctx => ctx.resolvedUpdate`, and merge the returned payload;
otherwise `StateManager.apply`. -/
def applyStateUpdate {σ π : Type} (cfg : EngineCfg σ π) (runId : String)
    (nodeId : Option NodeId) (s : σ) (u : StateUpdate σ π) : σ :=
  if cfg.stateMw.isEmpty then
    StateManager.apply cfg s u
  else
    let resolved := u.resolve s
    let ctx : StateMwCtx σ π :=
      { runId := runId, nodeId := nodeId, currentState := s,
        update := u, resolvedUpdate := resolved }
    let finalUpd := composeMiddleware cfg.stateMw (fun c => c.resolvedUpdate) ctx
    cfg.merge s finalUpd

/-! ### Initial-state resolution (`StateManager.resolve`) -/

/-- The `initialState` argument of `execute`/`stream`: a literal value or a
resolver function `(state | undefined) => state`. -/
inductive InitialState (σ : Type) where
  | value : σ → InitialState σ
  | resolver : (Option σ → σ) → InitialState σ

/-- `StateManager.resolve(initialState, existingState, emit)`: a resolver is
applied to the existing state; a literal yields `existingState ?? literal`.
Both branches emit a state event. -/
def StateManager.resolve {σ : Type} (init : InitialState σ) (existing : Option σ)
    (w : World σ) : σ × World σ :=
  match init with
  | .resolver f =>
      let s := f existing
      (s, w.emit (.stateChanged s))
  | .value v =>
      let s := existing.getD v
      (s, w.emit (.stateChanged s))

/-! ### Checkpoint validity and restoration -/

/-- `hasNodeIds(checkpoint)`: `checkpoint?.nodeIds != null`. -/
def hasNodeIds {σ : Type} : Option (Checkpoint σ) → Bool
  | some cp => cp.nodeIds.isSome
  | none => false

/-- `hasAtLeastOneNode(checkpoint)`: `checkpoint.nodeIds.length > 0` (called
only under the `hasNodeIds` guard, so the missing-list case is vacuous). -/
def hasAtLeastOneNode {σ : Type} (cp : Checkpoint σ) : Bool :=
  decide (0 < (cp.nodeIds.getD []).length)

/-- `isValidCheckpoint = hasNodeIds(checkpoint) && hasAtLeastOneNode(checkpoint)`. -/
def isValidCheckpoint {σ : Type} : Option (Checkpoint σ) → Bool
  | some cp => cp.nodeIds.isSome && hasAtLeastOneNode cp
  | none => false

/-- Modelled from the spec: "Valid/resumable iff at least one list is
non-empty" — the validity predicate as §3 of the spec words it, for
comparison with the code's `isValidCheckpoint`. -/
def specValidCheckpoint {σ : Type} : Option (Checkpoint σ) → Bool
  | some cp =>
      decide (0 < (cp.nodeIds.getD []).length) ||
      decide (0 < (cp.suspendedNodes.getD []).length)
  | none => false

/-- `resolveNodeIds`: registry lookups, dropping ids absent from the graph. -/
def resolveNodeIds {σ π : Type} (g : GraphDef σ π) (ids : List NodeId) :
    List (Node σ π) :=
  ids.filterMap (lookupNode g)

/-- The restored (or fresh) part of an execution context:
`(state, currentNodes, suspendedNodes)`. -/
structure CtxCore (σ π : Type) where
  state : σ
  currentNodes : List (Node σ π)
  suspendedNodes : List (Node σ π)

/-- `restoreFromCheckpoint`: resolve the initial state against the
checkpoint's state, re-resolve both node-id lists against the registry. -/
def restoreFromCheckpoint {σ π : Type} (g : GraphDef σ π) (cp : Checkpoint σ)
    (init : InitialState σ) (w : World σ) : CtxCore σ π × World σ :=
  let (s, w) := StateManager.resolve init (some cp.state) w
  ({ state := s,
     currentNodes := resolveNodeIds g (cp.nodeIds.getD []),
     suspendedNodes := resolveNodeIds g (cp.suspendedNodes.getD []) }, w)

/-- `createFreshExecution`: resolve against `undefined`, frontier = `[START]`
(the builder always registers `START`; an ill-formed registry without it
yields an empty frontier). -/
def createFreshExecution {σ π : Type} (g : GraphDef σ π) (init : InitialState σ)
    (w : World σ) : CtxCore σ π × World σ :=
  let (s, w) := StateManager.resolve init none w
  ({ state := s,
     currentNodes := (lookupNode g "START").toList,
     suspendedNodes := [] }, w)

/-- `restoreCheckpoint`: load, restore when valid, otherwise start fresh.
The `Bool` is `firstTime`. -/
def restoreCheckpoint {σ π : Type} (g : GraphDef σ π) (runId : String)
    (init : InitialState σ) (w : World σ) : CtxCore σ π × World σ × Bool :=
  let cp? := w.storage.load runId
  if isValidCheckpoint cp? then
    match cp? with
    | some cp =>
        let (core, w) := restoreFromCheckpoint g cp init w
        (core, w, false)
    | none =>
        let (core, w) := createFreshExecution g init w
        (core, w, true)
  else
    let (core, w) := createFreshExecution g init w
    (core, w, true)

/-! ### Batch execution and the scheduler loop -/

/-- `GraphSDK.ExecutionContext` (writer/emit live in `World`). -/
structure ExecCtx (σ π : Type) where
  runId : String
  state : σ
  currentNodes : List (Node σ π)
  suspendedNodes : List (Node σ π)

/-- How a nested subgraph invocation runs: given the child graph, the
namespaced run id, the child initial state and the world, it yields the
updated world and either the child's final state or the re-raised Suspense
signal.  `none` means the model's nesting-depth budget is exhausted (the
source has no such budget). -/
abbrev SubRunner (σ π : Type) :=
  GraphDef σ π → String → σ → World σ → Option (World σ × Except SuspenseData σ)

/-- Apply one `update()` call and emit the state event (both branches of the
source's update closure emit). -/
def applyUpdateEmit {σ π : Type} (cfg : EngineCfg σ π) (runId : String)
    (nodeId : Option NodeId) (s : σ) (w : World σ) (u : StateUpdate σ π) :
    σ × World σ :=
  let s' := applyStateUpdate cfg runId nodeId s u
  (s', w.emit (.stateChanged s'))

/-- Run the `update()` calls a body issued, in program order.  The engine
collects every call in the per-invocation `pendingUpdates` list and settles
the whole list (`await Promise.all`) before the node finishes, so each call
is applied whether or not the body awaited it. -/
def runUpdateCalls {σ π : Type} (cfg : EngineCfg σ π) (runId : String)
    (nodeId : NodeId) : σ → World σ → List (UpdateCall σ π) → σ × World σ
  | s, w, [] => (s, w)
  | s, w, c :: rest =>
      let (s', w') := applyUpdateEmit cfg runId (some nodeId) s w c.upd
      runUpdateCalls cfg runId nodeId s' w' rest

/-- `<parentRunId>:subgraph:<nodeId>`. -/
def generateSubgraphRunId (parentRunId : String) (nodeId : NodeId) : String :=
  parentRunId ++ ":subgraph:" ++ nodeId

/-- `executeSingleNode` (with `executeSubgraphNode` inlined as its subgraph
branch): emits `node:start`; a subgraph node runs the child engine under the
namespaced run id and merges its output through the state-middleware chain; an
ordinary node runs its body and settles its pending updates.  A caught
`SuspenseError` yields `some (node, data)` after emitting `node:suspense`;
normal completion emits `node:end` and yields no suspense. -/
def executeSingleNode {σ π : Type} (cfg : EngineCfg σ π) (g : GraphDef σ π)
    (sub : SubRunner σ π) (runId : String) (w : World σ) (s : σ)
    (n : Node σ π) : Option (World σ × σ × Option (Node σ π × SuspenseData)) :=
  match lookupSub g n.id with
  | some (inputMap, outputMap, child) =>
      let w := w.emit (.nodeStart n.id)
      let subRunId := generateSubgraphRunId runId n.id
      match sub child subRunId (inputMap s) w with
      | none => none
      | some (w, .ok childFinal) =>
          let parentUpdate := outputMap childFinal s
          let s' := applyStateUpdate cfg runId (some n.id) s (.lit parentUpdate)
          some (((w.emit (.stateChanged s')).emit (.nodeEnd n.id)), s', none)
      | some (w, .error d) =>
          some (w.emit (.nodeSuspense n.id d), s, some (n, d))
  | none =>
      let w := w.emit (.nodeStart n.id)
      let (calls, outcome) := n.body.run s
      let (s', w) := runUpdateCalls cfg runId n.id s w calls
      match outcome with
      | .done => some (w.emit (.nodeEnd n.id), s', none)
      | .suspend d => some (w.emit (.nodeSuspense n.id d), s', some (n, d))

/-- `executeBatch`: run every frontier node (the canonical serialisation of
the `Promise.all` join), keeping the non-null suspense results in node
order. -/
def executeBatch {σ π : Type} (cfg : EngineCfg σ π) (g : GraphDef σ π)
    (sub : SubRunner σ π) (runId : String) :
    World σ → σ → List (Node σ π) →
    Option (World σ × σ × List (Node σ π × SuspenseData))
  | w, s, [] => some (w, s, [])
  | w, s, n :: rest =>
      match executeSingleNode cfg g sub runId w s n with
      | none => none
      | some (w, s, r) =>
          match executeBatch cfg g sub runId w s rest with
          | none => none
          | some (w, s, suspenses) => some (w, s, r.toList ++ suspenses)

/-- `deduplicateNodes` (`[...new Set(nodes)]`): node objects in the registry
are unique per id, so identity-dedup keeps the first occurrence of each id. -/
def dedupFrom {σ π : Type} (seen : List NodeId) :
    List (Node σ π) → List (Node σ π)
  | [] => []
  | n :: rest =>
      if n.id ∈ seen then dedupFrom seen rest
      else n :: dedupFrom (n.id :: seen) rest

/-- See `dedupFrom`. -/
def deduplicateNodes {σ π : Type} (l : List (Node σ π)) : List (Node σ π) :=
  dedupFrom [] l

/-- `excludeTerminalNodes`: drop `END`. -/
def excludeTerminalNodes {σ π : Type} (l : List (Node σ π)) : List (Node σ π) :=
  l.filter (fun n => n.id != "END")

/-- `resolveEdgeTarget`: resolve the (possibly dynamic) target id against the
given state and look it up in the registry. -/
def resolveEdgeTarget {σ π : Type} (g : GraphDef σ π) (e : Edge σ) (s : σ) :
    Option (Node σ π) :=
  lookupNode g (e.toTarget.resolve s)

/-- `findSuccessors`: evaluate every outgoing edge of `nodeId` against the
state, dropping targets absent from the registry. -/
def findSuccessors {σ π : Type} (g : GraphDef σ π) (nodeId : NodeId) (s : σ) :
    List (Node σ π) :=
  (edgesFrom g nodeId).filterMap (fun e => resolveEdgeTarget g e s)

/-- `computeNextNodes`: successors of every frontier node, deduplicated,
`END` excluded. -/
def computeNextNodes {σ π : Type} (g : GraphDef σ π) (currentNodes : List (Node σ π))
    (s : σ) : List (Node σ π) :=
  excludeTerminalNodes
    (deduplicateNodes (currentNodes.flatMap (fun n => findSuccessors g n.id s)))

/-- `persistCheckpoint`: save state plus the ids of both frontier lists. -/
def persistCheckpoint {σ π : Type} (w : World σ) (ctx : ExecCtx σ π) : World σ :=
  let cp : Checkpoint σ :=
    { state := ctx.state,
      nodeIds := some (ctx.currentNodes.map (·.id)),
      suspendedNodes := some (ctx.suspendedNodes.map (·.id)) }
  { w with storage := w.storage.save ctx.runId cp }

/-- Invocation mode: `'return'` (top-level `execute`/`stream`: a suspension
halts quietly) or `'throw'` (`executeInternal`: a suspension re-raises to the
caller). -/
inductive SuspenseStrategy where
  | ret
  | thrw
deriving Repr, DecidableEq

/-- What `handleBatchResultWithStrategy` tells the loop to do next. -/
inductive BatchDecision where
  | cont
  | halt
  | raise (d : SuspenseData)
deriving Repr

/-- `handleBatchResultWithStrategy`: with ≥1 suspense, record the suspended
set, persist, and halt (or re-raise `{type: 'subgraph-suspended'}` in throw
mode); with none, advance the frontier to the successors under the post-batch
state, clear the suspended set, persist, and continue. -/
def handleBatchResultWithStrategy {σ π : Type} (g : GraphDef σ π) (w : World σ)
    (ctx : ExecCtx σ π) (suspenses : List (Node σ π × SuspenseData))
    (strategy : SuspenseStrategy) : World σ × ExecCtx σ π × BatchDecision :=
  match suspenses with
  | _ :: _ =>
      let ctx := { ctx with suspendedNodes := suspenses.map (·.1) }
      let w := persistCheckpoint w ctx
      match strategy with
      | .thrw => (w, ctx, .raise .subgraphSuspended)
      | .ret => (w, ctx, .halt)
  | [] =>
      let ctx := { ctx with
        currentNodes := computeNextNodes g ctx.currentNodes ctx.state,
        suspendedNodes := [] }
      (persistCheckpoint w ctx, ctx, .cont)

/-- How a run of the scheduler loop ends.  `outOfFuel` is a model artefact:
the source loop is unbounded, the model carries an iteration budget. -/
inductive LoopOutcome where
  | completed
  | suspendedHalt
  | raised (d : SuspenseData)
  | outOfFuel
deriving Repr, DecidableEq

/-- `executeNodesWithStrategy`: iterate batches while the frontier is
non-empty; on a suspension halt (or raise); on an empty frontier delete the
run's checkpoint (awaited: the delete is sequenced before the result). -/
def executeNodesWithStrategy {σ π : Type} (cfg : EngineCfg σ π) (g : GraphDef σ π)
    (sub : SubRunner σ π) :
    Nat → World σ → ExecCtx σ π → SuspenseStrategy →
    Option (World σ × ExecCtx σ π × LoopOutcome)
  | 0, w, ctx, _ =>
      match ctx.currentNodes with
      | [] => some ({ w with storage := w.storage.del ctx.runId }, ctx, .completed)
      | _ :: _ => some (w, ctx, .outOfFuel)
  | fuel' + 1, w, ctx, strategy =>
      match ctx.currentNodes with
      | [] => some ({ w with storage := w.storage.del ctx.runId }, ctx, .completed)
      | _ :: _ =>
          match executeBatch cfg g sub ctx.runId w ctx.state ctx.currentNodes with
          | none => none
          | some (w, s, suspenses) =>
              let ctx := { ctx with state := s }
              match handleBatchResultWithStrategy g w ctx suspenses strategy with
              | (w, ctx, .cont) =>
                  executeNodesWithStrategy cfg g sub fuel' w ctx strategy
              | (w, ctx, .halt) => some (w, ctx, .suspendedHalt)
              | (w, ctx, .raise d) => some (w, ctx, .raised d)

/-- `executeWithStrategy`: if the restored context has suspended nodes,
resume that batch first (`resumeWithStrategy`); when it yields control back,
fall into the normal loop. -/
def executeWithStrategy {σ π : Type} (cfg : EngineCfg σ π) (g : GraphDef σ π)
    (sub : SubRunner σ π) (fuel : Nat) (w : World σ) (ctx : ExecCtx σ π)
    (strategy : SuspenseStrategy) :
    Option (World σ × ExecCtx σ π × LoopOutcome) :=
  match ctx.suspendedNodes with
  | [] => executeNodesWithStrategy cfg g sub fuel w ctx strategy
  | _ :: _ =>
      match executeBatch cfg g sub ctx.runId w ctx.state ctx.suspendedNodes with
      | none => none
      | some (w, s, suspenses) =>
          let ctx := { ctx with state := s }
          match handleBatchResultWithStrategy g w ctx suspenses strategy with
          | (w, ctx, .cont) => executeNodesWithStrategy cfg g sub fuel w ctx strategy
          | (w, ctx, .halt) => some (w, ctx, .suspendedHalt)
          | (w, ctx, .raise d) => some (w, ctx, .raised d)

/-- `createExecutionContext`: restore or create, then attach the run id. -/
def createExecutionContext {σ π : Type} (g : GraphDef σ π) (runId : String)
    (init : InitialState σ) (w : World σ) : ExecCtx σ π × World σ × Bool :=
  let (core, w, firstTime) := restoreCheckpoint g runId init w
  ({ runId := runId, state := core.state, currentNodes := core.currentNodes,
     suspendedNodes := core.suspendedNodes }, w, firstTime)

/-- The engine core of `CompiledGraph.execute` / `stream` (no graph
middleware registered): restore, then run the loop in `'return'` mode. -/
def executeModel {σ π : Type} (cfg : EngineCfg σ π) (g : GraphDef σ π)
    (sub : SubRunner σ π) (fuel : Nat) (runId : String) (init : InitialState σ)
    (w : World σ) : Option (World σ × ExecCtx σ π × LoopOutcome) :=
  let (ctx, w, _) := createExecutionContext g runId init w
  executeWithStrategy cfg g sub fuel w ctx .ret

/-- `executeInternal`: nested-subgraph invocation mode.  The initial state is
a literal (the parent passes `options.input(parentState)`); the loop runs in
`'throw'` mode, so a suspension re-raises after persisting. -/
def executeInternalModel {σ π : Type} (cfg : EngineCfg σ π) (g : GraphDef σ π)
    (sub : SubRunner σ π) (fuel : Nat) (runId : String) (init : σ)
    (w : World σ) : Option (World σ × Except SuspenseData σ) :=
  let (ctx, w, _) := createExecutionContext g runId (.value init) w
  match executeWithStrategy cfg g sub fuel w ctx .thrw with
  | some (w, ctx, .completed) => some (w, .ok ctx.state)
  | some (w, _, .raised d) => some (w, .error d)
  | _ => none

/-- Nested engines, to depth `depth`: the `new CompiledGraph(...)` +
`executeInternal` call in `executeSubgraphNode`, sharing the parent's storage
and middleware configuration. -/
def subRunnerAt {σ π : Type} (cfg : EngineCfg σ π) (fuel : Nat) :
    Nat → SubRunner σ π
  | 0 => fun _ _ _ _ => none
  | depth + 1 => fun child runId init w =>
      executeInternalModel cfg child (subRunnerAt cfg fuel depth) fuel runId init w

/-- The `execute` of the pre-middleware `CompiledGraph` lineage
(`part_006`): restore, fire the `onStart` compile callback only when
`firstTime` (no valid checkpoint), then run the loop in `'return'` mode. -/
def executeWithOnStart {σ π : Type} (cfg : EngineCfg σ π) (g : GraphDef σ π)
    (sub : SubRunner σ π) (fuel : Nat) (runId : String) (init : InitialState σ)
    (w : World σ) : Option (World σ × ExecCtx σ π × LoopOutcome) :=
  let (ctx, w, firstTime) := createExecutionContext g runId init w
  let w := if firstTime then w.emit .onStartCallback else w
  executeWithStrategy cfg g sub fuel w ctx .ret

/-! ### Storage lemmas -/

theorem Storage.load_save_self {σ : Type} (st : Storage σ) (runId : String)
    (cp : Checkpoint σ) : (st.save runId cp).load runId = some cp := by
  simp [Storage.save, Storage.load, List.find?]

theorem Storage.load_del_self {σ : Type} (st : Storage σ) (runId : String) :
    (st.del runId).load runId = none := by
  induction st with
  | nil => rfl
  | cons kv rest ih =>
      by_cases h : kv.1 = runId
      · have hb : (kv.1 != runId) = false := by simp [bne, h]
        simp only [Storage.del, List.filter_cons, hb, Bool.false_eq_true, if_false]
        exact ih
      · have hb : (kv.1 != runId) = true := by simp [bne, h]
        have hk : (kv.1 == runId) = false := by simp [h]
        simp only [Storage.del, List.filter_cons, hb, if_true]
        simp only [Storage.load, List.find?, hk]
        exact ih

/-! ### One-step unfolding equations for the scheduler -/

theorem executeSingleNode_sub_none {σ π : Type} (cfg : EngineCfg σ π)
    (g : GraphDef σ π) (sub : SubRunner σ π) (runId : String) (w : World σ)
    (s : σ) (n : Node σ π) (inputMap : σ → σ) (outputMap : σ → σ → π)
    (child : GraphDef σ π)
    (hl : lookupSub g n.id = some (inputMap, outputMap, child))
    (hr : sub child (generateSubgraphRunId runId n.id) (inputMap s)
        (w.emit (.nodeStart n.id)) = none) :
    executeSingleNode cfg g sub runId w s n = none := by
  unfold executeSingleNode
  rw [hl]
  simp only []
  rw [hr]

theorem executeSingleNode_sub_ok {σ π : Type} (cfg : EngineCfg σ π)
    (g : GraphDef σ π) (sub : SubRunner σ π) (runId : String) (w w₁ : World σ)
    (s childFinal : σ) (n : Node σ π) (inputMap : σ → σ) (outputMap : σ → σ → π)
    (child : GraphDef σ π)
    (hl : lookupSub g n.id = some (inputMap, outputMap, child))
    (hr : sub child (generateSubgraphRunId runId n.id) (inputMap s)
        (w.emit (.nodeStart n.id)) = some (w₁, .ok childFinal)) :
    executeSingleNode cfg g sub runId w s n =
      some ((w₁.emit (.stateChanged
              (applyStateUpdate cfg runId (some n.id) s
                (.lit (outputMap childFinal s))))).emit (.nodeEnd n.id),
            applyStateUpdate cfg runId (some n.id) s (.lit (outputMap childFinal s)),
            none) := by
  unfold executeSingleNode
  rw [hl]
  simp only []
  rw [hr]

theorem executeSingleNode_sub_error {σ π : Type} (cfg : EngineCfg σ π)
    (g : GraphDef σ π) (sub : SubRunner σ π) (runId : String) (w w₁ : World σ)
    (s : σ) (n : Node σ π) (inputMap : σ → σ) (outputMap : σ → σ → π)
    (child : GraphDef σ π) (d : SuspenseData)
    (hl : lookupSub g n.id = some (inputMap, outputMap, child))
    (hr : sub child (generateSubgraphRunId runId n.id) (inputMap s)
        (w.emit (.nodeStart n.id)) = some (w₁, .error d)) :
    executeSingleNode cfg g sub runId w s n =
      some (w₁.emit (.nodeSuspense n.id d), s, some (n, d)) := by
  unfold executeSingleNode
  rw [hl]
  simp only []
  rw [hr]

theorem executeSingleNode_ord_done {σ π : Type} (cfg : EngineCfg σ π)
    (g : GraphDef σ π) (sub : SubRunner σ π) (runId : String) (w : World σ)
    (s : σ) (n : Node σ π) (calls : List (UpdateCall σ π))
    (hl : lookupSub g n.id = none) (hb : n.body.run s = (calls, .done)) :
    executeSingleNode cfg g sub runId w s n =
      some ((runUpdateCalls cfg runId n.id s (w.emit (.nodeStart n.id)) calls).2.emit
              (.nodeEnd n.id),
            (runUpdateCalls cfg runId n.id s (w.emit (.nodeStart n.id)) calls).1,
            none) := by
  unfold executeSingleNode
  rw [hl]
  simp only []
  simp only [hb]

theorem executeSingleNode_ord_suspend {σ π : Type} (cfg : EngineCfg σ π)
    (g : GraphDef σ π) (sub : SubRunner σ π) (runId : String) (w : World σ)
    (s : σ) (n : Node σ π) (calls : List (UpdateCall σ π)) (d : SuspenseData)
    (hl : lookupSub g n.id = none) (hb : n.body.run s = (calls, .suspend d)) :
    executeSingleNode cfg g sub runId w s n =
      some ((runUpdateCalls cfg runId n.id s (w.emit (.nodeStart n.id)) calls).2.emit
              (.nodeSuspense n.id d),
            (runUpdateCalls cfg runId n.id s (w.emit (.nodeStart n.id)) calls).1,
            some (n, d)) := by
  unfold executeSingleNode
  rw [hl]
  simp only []
  simp only [hb]

theorem executeBatch_nil {σ π : Type} (cfg : EngineCfg σ π) (g : GraphDef σ π)
    (sub : SubRunner σ π) (runId : String) (w : World σ) (s : σ) :
    executeBatch cfg g sub runId w s [] = some (w, s, []) := rfl

theorem executeBatch_cons_inv {σ π : Type} {cfg : EngineCfg σ π} {g : GraphDef σ π}
    {sub : SubRunner σ π} {runId : String} {w w' : World σ} {s s' : σ}
    {n : Node σ π} {rest : List (Node σ π)}
    {susp : List (Node σ π × SuspenseData)}
    (h : executeBatch cfg g sub runId w s (n :: rest) = some (w', s', susp)) :
    ∃ w₁ s₁ r ps,
      executeSingleNode cfg g sub runId w s n = some (w₁, s₁, r) ∧
      executeBatch cfg g sub runId w₁ s₁ rest = some (w', s', ps) ∧
      susp = r.toList ++ ps := by
  unfold executeBatch at h
  cases h1 : executeSingleNode cfg g sub runId w s n with
  | none => rw [h1] at h; exact absurd h (by simp)
  | some res =>
      obtain ⟨w₁, s₁, r⟩ := res
      rw [h1] at h
      simp only [] at h
      cases h2 : executeBatch cfg g sub runId w₁ s₁ rest with
      | none => rw [h2] at h; exact absurd h (by simp)
      | some res2 =>
          obtain ⟨w₂, s₂, ps⟩ := res2
          rw [h2] at h
          simp only [Option.some.injEq, Prod.mk.injEq] at h
          obtain ⟨hw, hs, hsusp⟩ := h
          exact ⟨w₁, s₁, r, ps, rfl, by rw [← hw, ← hs]; exact h2, hsusp.symm⟩

theorem executeNodes_empty {σ π : Type} (cfg : EngineCfg σ π) (g : GraphDef σ π)
    (sub : SubRunner σ π) (fuel : Nat) (w : World σ) (ctx : ExecCtx σ π)
    (strategy : SuspenseStrategy) (hc : ctx.currentNodes = []) :
    executeNodesWithStrategy cfg g sub fuel w ctx strategy =
      some ({ w with storage := w.storage.del ctx.runId }, ctx, .completed) := by
  obtain ⟨rid, st, cur, susp⟩ := ctx
  simp only at hc
  subst hc
  cases fuel <;> rfl

theorem executeNodes_stuck {σ π : Type} (cfg : EngineCfg σ π) (g : GraphDef σ π)
    (sub : SubRunner σ π) (w : World σ) (ctx : ExecCtx σ π)
    (strategy : SuspenseStrategy) {a : Node σ π} {rest : List (Node σ π)}
    (hc : ctx.currentNodes = a :: rest) :
    executeNodesWithStrategy cfg g sub 0 w ctx strategy = some (w, ctx, .outOfFuel) := by
  obtain ⟨rid, st, cur, susp⟩ := ctx
  simp only at hc
  subst hc
  rfl

theorem executeNodes_step_suspend {σ π : Type} (cfg : EngineCfg σ π)
    (g : GraphDef σ π) (sub : SubRunner σ π) (fuel : Nat) (w w₁ : World σ)
    (ctx : ExecCtx σ π) (strategy : SuspenseStrategy) (s₁ : σ)
    {a : Node σ π} {rest : List (Node σ π)}
    (p : Node σ π × SuspenseData) (ps : List (Node σ π × SuspenseData))
    (hc : ctx.currentNodes = a :: rest)
    (hb : executeBatch cfg g sub ctx.runId w ctx.state (a :: rest) =
      some (w₁, s₁, p :: ps)) :
    executeNodesWithStrategy cfg g sub (fuel + 1) w ctx strategy =
      some (persistCheckpoint w₁
              { ctx with state := s₁, suspendedNodes := (p :: ps).map (·.1) },
            { ctx with state := s₁, suspendedNodes := (p :: ps).map (·.1) },
            match strategy with
            | .ret => LoopOutcome.suspendedHalt
            | .thrw => LoopOutcome.raised .subgraphSuspended) := by
  conv_lhs => rw [executeNodesWithStrategy]
  rw [hc]
  simp only []
  rw [show executeBatch cfg g sub ctx.runId w ctx.state (a :: rest) =
    some (w₁, s₁, p :: ps) from hb]
  cases strategy <;> rfl

theorem executeNodes_step_advance {σ π : Type} (cfg : EngineCfg σ π)
    (g : GraphDef σ π) (sub : SubRunner σ π) (fuel : Nat) (w w₁ : World σ)
    (ctx : ExecCtx σ π) (strategy : SuspenseStrategy) (s₁ : σ)
    {a : Node σ π} {rest : List (Node σ π)}
    (hc : ctx.currentNodes = a :: rest)
    (hb : executeBatch cfg g sub ctx.runId w ctx.state (a :: rest) =
      some (w₁, s₁, [])) :
    executeNodesWithStrategy cfg g sub (fuel + 1) w ctx strategy =
      executeNodesWithStrategy cfg g sub fuel
        (persistCheckpoint w₁
          { ctx with state := s₁,
                     currentNodes := computeNextNodes g ctx.currentNodes s₁,
                     suspendedNodes := [] })
        { ctx with state := s₁,
                   currentNodes := computeNextNodes g ctx.currentNodes s₁,
                   suspendedNodes := [] } strategy := by
  conv_lhs => rw [executeNodesWithStrategy]
  rw [hc]
  simp only []
  rw [show executeBatch cfg g sub ctx.runId w ctx.state (a :: rest) =
    some (w₁, s₁, []) from hb]
  rfl

theorem executeNodes_step_none {σ π : Type} (cfg : EngineCfg σ π)
    (g : GraphDef σ π) (sub : SubRunner σ π) (fuel : Nat) (w : World σ)
    (ctx : ExecCtx σ π) (strategy : SuspenseStrategy)
    {a : Node σ π} {rest : List (Node σ π)}
    (hc : ctx.currentNodes = a :: rest)
    (hb : executeBatch cfg g sub ctx.runId w ctx.state (a :: rest) = none) :
    executeNodesWithStrategy cfg g sub (fuel + 1) w ctx strategy = none := by
  conv_lhs => rw [executeNodesWithStrategy]
  rw [hc]
  simp only []
  rw [show executeBatch cfg g sub ctx.runId w ctx.state (a :: rest) = none from hb]

theorem executeWith_no_suspended {σ π : Type} (cfg : EngineCfg σ π)
    (g : GraphDef σ π) (sub : SubRunner σ π) (fuel : Nat) (w : World σ)
    (ctx : ExecCtx σ π) (strategy : SuspenseStrategy)
    (hs : ctx.suspendedNodes = []) :
    executeWithStrategy cfg g sub fuel w ctx strategy =
      executeNodesWithStrategy cfg g sub fuel w ctx strategy := by
  unfold executeWithStrategy
  rw [hs]

theorem executeWith_resume_none {σ π : Type} (cfg : EngineCfg σ π)
    (g : GraphDef σ π) (sub : SubRunner σ π) (fuel : Nat) (w : World σ)
    (ctx : ExecCtx σ π) (strategy : SuspenseStrategy)
    {a : Node σ π} {rest : List (Node σ π)}
    (hs : ctx.suspendedNodes = a :: rest)
    (hb : executeBatch cfg g sub ctx.runId w ctx.state (a :: rest) = none) :
    executeWithStrategy cfg g sub fuel w ctx strategy = none := by
  unfold executeWithStrategy
  rw [hs]
  simp only []
  rw [show executeBatch cfg g sub ctx.runId w ctx.state (a :: rest) = none from hb]

theorem executeWith_resume_suspend {σ π : Type} (cfg : EngineCfg σ π)
    (g : GraphDef σ π) (sub : SubRunner σ π) (fuel : Nat) (w w₁ : World σ)
    (ctx : ExecCtx σ π) (strategy : SuspenseStrategy) (s₁ : σ)
    {a : Node σ π} {rest : List (Node σ π)}
    (p : Node σ π × SuspenseData) (ps : List (Node σ π × SuspenseData))
    (hs : ctx.suspendedNodes = a :: rest)
    (hb : executeBatch cfg g sub ctx.runId w ctx.state (a :: rest) =
      some (w₁, s₁, p :: ps)) :
    executeWithStrategy cfg g sub fuel w ctx strategy =
      some (persistCheckpoint w₁
              { ctx with state := s₁, suspendedNodes := (p :: ps).map (·.1) },
            { ctx with state := s₁, suspendedNodes := (p :: ps).map (·.1) },
            match strategy with
            | .ret => LoopOutcome.suspendedHalt
            | .thrw => LoopOutcome.raised .subgraphSuspended) := by
  unfold executeWithStrategy
  rw [hs]
  simp only []
  rw [show executeBatch cfg g sub ctx.runId w ctx.state (a :: rest) =
    some (w₁, s₁, p :: ps) from hb]
  cases strategy <;> rfl

theorem executeWith_resume_advance {σ π : Type} (cfg : EngineCfg σ π)
    (g : GraphDef σ π) (sub : SubRunner σ π) (fuel : Nat) (w w₁ : World σ)
    (ctx : ExecCtx σ π) (strategy : SuspenseStrategy) (s₁ : σ)
    {a : Node σ π} {rest : List (Node σ π)}
    (hs : ctx.suspendedNodes = a :: rest)
    (hb : executeBatch cfg g sub ctx.runId w ctx.state (a :: rest) =
      some (w₁, s₁, [])) :
    executeWithStrategy cfg g sub fuel w ctx strategy =
      executeNodesWithStrategy cfg g sub fuel
        (persistCheckpoint w₁
          { ctx with state := s₁,
                     currentNodes := computeNextNodes g ctx.currentNodes s₁,
                     suspendedNodes := [] })
        { ctx with state := s₁,
                   currentNodes := computeNextNodes g ctx.currentNodes s₁,
                   suspendedNodes := [] } strategy := by
  unfold executeWithStrategy
  rw [hs]
  simp only []
  rw [show executeBatch cfg g sub ctx.runId w ctx.state (a :: rest) =
    some (w₁, s₁, []) from hb]
  rfl

/-! ### Trace extension

The engine only appends to the event trace, and the scheduler loop itself
never fires the `onStart` callback (only the `execute` wrapper of the
pre-middleware lineage does, before the loop). -/

/-- `w'` extends `w`'s trace without firing the `onStart` callback. -/
def TraceStep {σ : Type} (w w' : World σ) : Prop :=
  ∃ t, w'.trace = w.trace ++ t ∧ Ev.onStartCallback ∉ t

theorem TraceStep.refl {σ : Type} (w : World σ) : TraceStep w w :=
  ⟨[], by simp, by simp⟩

theorem TraceStep.of_trace_eq {σ : Type} {w w' : World σ}
    (h : w'.trace = w.trace) : TraceStep w w' :=
  ⟨[], by simp [h], by simp⟩

theorem TraceStep.trans {σ : Type} {w₁ w₂ w₃ : World σ}
    (h₁ : TraceStep w₁ w₂) (h₂ : TraceStep w₂ w₃) : TraceStep w₁ w₃ := by
  obtain ⟨t₁, e₁, n₁⟩ := h₁
  obtain ⟨t₂, e₂, n₂⟩ := h₂
  exact ⟨t₁ ++ t₂, by simp [e₂, e₁], by simp [n₁, n₂]⟩

theorem TraceStep.emit {σ : Type} (w : World σ) {e : Ev σ}
    (h : e ≠ Ev.onStartCallback) : TraceStep w (w.emit e) :=
  ⟨[e], rfl, by simpa using Ne.symm h⟩

theorem TraceStep.mem {σ : Type} {w w' : World σ} (h : TraceStep w w')
    {e : Ev σ} (he : e ∈ w.trace) : e ∈ w'.trace := by
  obtain ⟨t, ht, -⟩ := h
  simp [ht, he]

theorem TraceStep.resolve {σ : Type} (init : InitialState σ) (existing : Option σ)
    (w : World σ) : TraceStep w (StateManager.resolve init existing w).2 := by
  cases init <;> exact TraceStep.emit w (by simp)

theorem TraceStep.runUpdates {σ π : Type} (cfg : EngineCfg σ π) (runId : String)
    (nodeId : NodeId) (s : σ) (w : World σ) (calls : List (UpdateCall σ π)) :
    TraceStep w (runUpdateCalls cfg runId nodeId s w calls).2 := by
  induction calls generalizing s w with
  | nil => exact TraceStep.refl w
  | cons c rest ih =>
      exact TraceStep.trans
        (TraceStep.emit w (by simp [GraphSDK.applyUpdateEmit])) (ih _ _)

/-- The trace contract of an abstract nested-subgraph runner. -/
def SubOk {σ π : Type} (sub : SubRunner σ π) : Prop :=
  ∀ child runId init w r, sub child runId init w = some r → TraceStep w r.1

/-- Per-node result characterisation: a suspense result names the executed
node itself, and a non-suspense result has emitted its `node:end` event;
either way the trace only grows. -/
theorem executeSingleNode_spec {σ π : Type} {cfg : EngineCfg σ π}
    {g : GraphDef σ π} {sub : SubRunner σ π} (hsub : SubOk sub)
    {runId : String} {w w₁ : World σ} {s s₁ : σ} {n : Node σ π}
    {r : Option (Node σ π × SuspenseData)}
    (h : executeSingleNode cfg g sub runId w s n = some (w₁, s₁, r)) :
    TraceStep w w₁ ∧
    (∀ p, r = some p → p.1 = n) ∧
    (r = none → Ev.nodeEnd n.id ∈ w₁.trace) := by
  cases hl : lookupSub g n.id with
  | some entry =>
      obtain ⟨inputMap, outputMap, child⟩ := entry
      cases hr : sub child (generateSubgraphRunId runId n.id) (inputMap s)
          (w.emit (.nodeStart n.id)) with
      | none =>
          rw [executeSingleNode_sub_none cfg g sub runId w s n _ _ _ hl hr] at h
          exact absurd h (by simp)
      | some res =>
          obtain ⟨w₂, res⟩ := res
          have hstep : TraceStep w w₂ :=
            TraceStep.trans (TraceStep.emit w (by simp)) (hsub _ _ _ _ _ hr)
          cases res with
          | ok childFinal =>
              rw [executeSingleNode_sub_ok cfg g sub runId w w₂ s childFinal n
                _ _ _ hl hr] at h
              simp only [Option.some.injEq, Prod.mk.injEq] at h
              obtain ⟨hw, -, hr'⟩ := h
              subst hw
              refine ⟨TraceStep.trans hstep (TraceStep.trans
                (TraceStep.emit w₂ (by simp)) (TraceStep.emit _ (by simp))), ?_, ?_⟩
              · intro p hp; rw [← hr'] at hp; exact absurd hp (by simp)
              · intro _; simp [World.emit]
          | error d =>
              rw [executeSingleNode_sub_error cfg g sub runId w w₂ s n
                _ _ _ _ hl hr] at h
              simp only [Option.some.injEq, Prod.mk.injEq] at h
              obtain ⟨hw, -, hr'⟩ := h
              subst hw
              refine ⟨TraceStep.trans hstep (TraceStep.emit w₂ (by simp)), ?_, ?_⟩
              · intro p hp; rw [← hr'] at hp
                simp only [Option.some.injEq] at hp; rw [← hp]
              · intro hnone; rw [← hr'] at hnone; exact absurd hnone (by simp)
  | none =>
      have hpre : TraceStep w
          (runUpdateCalls cfg runId n.id s (w.emit (.nodeStart n.id))
            (n.body.run s).1).2 :=
        TraceStep.trans (TraceStep.emit w (by simp))
          (TraceStep.runUpdates cfg runId n.id s _ _)
      cases ho : (n.body.run s).2 with
      | done =>
          rw [executeSingleNode_ord_done cfg g sub runId w s n (n.body.run s).1 hl
            (by rw [← ho])] at h
          simp only [Option.some.injEq, Prod.mk.injEq] at h
          obtain ⟨hw, -, hr'⟩ := h
          subst hw
          refine ⟨TraceStep.trans hpre (TraceStep.emit _ (by simp)), ?_, ?_⟩
          · intro p hp; rw [← hr'] at hp; exact absurd hp (by simp)
          · intro _; simp [World.emit]
      | suspend d =>
          rw [executeSingleNode_ord_suspend cfg g sub runId w s n (n.body.run s).1
            d hl (by rw [← ho])] at h
          simp only [Option.some.injEq, Prod.mk.injEq] at h
          obtain ⟨hw, -, hr'⟩ := h
          subst hw
          refine ⟨TraceStep.trans hpre (TraceStep.emit _ (by simp)), ?_, ?_⟩
          · intro p hp; rw [← hr'] at hp
            simp only [Option.some.injEq] at hp; rw [← hp]
          · intro hnone; rw [← hr'] at hnone; exact absurd hnone (by simp)

theorem executeBatch_trace {σ π : Type} {cfg : EngineCfg σ π} {g : GraphDef σ π}
    {sub : SubRunner σ π} (hsub : SubOk sub) {runId : String}
    {nodes : List (Node σ π)} {w w' : World σ} {s s' : σ}
    {susp : List (Node σ π × SuspenseData)}
    (h : executeBatch cfg g sub runId w s nodes = some (w', s', susp)) :
    TraceStep w w' := by
  induction nodes generalizing w s susp with
  | nil =>
      rw [executeBatch_nil] at h
      simp only [Option.some.injEq, Prod.mk.injEq] at h
      obtain ⟨hw, -, -⟩ := h
      exact hw ▸ TraceStep.refl w
  | cons n rest ih =>
      obtain ⟨w₁, s₁, r, ps, h1, h2, -⟩ := executeBatch_cons_inv h
      exact TraceStep.trans (executeSingleNode_spec hsub h1).1 (ih h2)

/-- Every node of a batch either appears in the suspense list (the Suspense
was caught for it alone) or ran to completion, emitting its `node:end`. -/
theorem executeBatch_sibling {σ π : Type} {cfg : EngineCfg σ π} {g : GraphDef σ π}
    {sub : SubRunner σ π} (hsub : SubOk sub) {runId : String}
    {nodes : List (Node σ π)} {w w' : World σ} {s s' : σ}
    {susp : List (Node σ π × SuspenseData)}
    (h : executeBatch cfg g sub runId w s nodes = some (w', s', susp)) :
    ∀ n ∈ nodes, (∃ d, (n, d) ∈ susp) ∨ Ev.nodeEnd n.id ∈ w'.trace := by
  induction nodes generalizing w s susp with
  | nil => intro n hn; exact absurd hn (by simp)
  | cons m rest ih =>
      obtain ⟨w₁, s₁, r, ps, h1, h2, hsplit⟩ := executeBatch_cons_inv h
      obtain ⟨htr, hname, hend⟩ := executeSingleNode_spec hsub h1
      intro n hn
      rcases List.mem_cons.mp hn with hhead | htail
      · subst hhead
        cases hr : r with
        | some p =>
            left
            refine ⟨p.2, ?_⟩
            have : p.1 = n := hname p hr
            rw [hsplit, hr]
            simp [← this]
        | none =>
            right
            have hmem := hend hr
            exact (executeBatch_trace hsub h2).mem hmem
      · rcases ih h2 n htail with ⟨d, hd⟩ | hmem
        · left; exact ⟨d, by rw [hsplit]; simp [hd]⟩
        · right; exact hmem

theorem persistCheckpoint_trace {σ π : Type} (w : World σ) (ctx : ExecCtx σ π) :
    (persistCheckpoint w ctx).trace = w.trace := rfl

theorem executeNodes_trace {σ π : Type} {cfg : EngineCfg σ π} {g : GraphDef σ π}
    {sub : SubRunner σ π} (hsub : SubOk sub) {fuel : Nat} {w w' : World σ}
    {ctx ctx' : ExecCtx σ π} {strategy : SuspenseStrategy} {out : LoopOutcome}
    (h : executeNodesWithStrategy cfg g sub fuel w ctx strategy = some (w', ctx', out)) :
    TraceStep w w' := by
  induction fuel generalizing w ctx with
  | zero =>
      cases hc : ctx.currentNodes with
      | nil =>
          rw [executeNodes_empty cfg g sub 0 w ctx strategy hc] at h
          simp only [Option.some.injEq, Prod.mk.injEq] at h
          obtain ⟨hw, -, -⟩ := h
          exact hw ▸ TraceStep.of_trace_eq rfl
      | cons a rest =>
          rw [executeNodes_stuck cfg g sub w ctx strategy hc] at h
          simp only [Option.some.injEq, Prod.mk.injEq] at h
          obtain ⟨hw, -, -⟩ := h
          exact hw ▸ TraceStep.refl w
  | succ fuel ih =>
      cases hc : ctx.currentNodes with
      | nil =>
          rw [executeNodes_empty cfg g sub (fuel + 1) w ctx strategy hc] at h
          simp only [Option.some.injEq, Prod.mk.injEq] at h
          obtain ⟨hw, -, -⟩ := h
          exact hw ▸ TraceStep.of_trace_eq rfl
      | cons a rest =>
          cases hb : executeBatch cfg g sub ctx.runId w ctx.state (a :: rest) with
          | none =>
              rw [executeNodes_step_none cfg g sub fuel w ctx strategy hc hb] at h
              exact absurd h (by simp)
          | some res =>
              obtain ⟨w₁, s₁, susp⟩ := res
              have hbt : TraceStep w w₁ := executeBatch_trace hsub hb
              cases susp with
              | nil =>
                  rw [executeNodes_step_advance cfg g sub fuel w w₁ ctx strategy
                    s₁ hc hb] at h
                  exact TraceStep.trans
                    (TraceStep.trans hbt
                      (TraceStep.of_trace_eq (persistCheckpoint_trace w₁ _))) (ih h)
              | cons p ps =>
                  rw [executeNodes_step_suspend cfg g sub fuel w w₁ ctx strategy
                    s₁ p ps hc hb] at h
                  simp only [Option.some.injEq, Prod.mk.injEq] at h
                  obtain ⟨hw, -, -⟩ := h
                  exact hw ▸ TraceStep.trans hbt (TraceStep.of_trace_eq rfl)

theorem executeWith_trace {σ π : Type} {cfg : EngineCfg σ π} {g : GraphDef σ π}
    {sub : SubRunner σ π} (hsub : SubOk sub) {fuel : Nat} {w w' : World σ}
    {ctx ctx' : ExecCtx σ π} {strategy : SuspenseStrategy} {out : LoopOutcome}
    (h : executeWithStrategy cfg g sub fuel w ctx strategy = some (w', ctx', out)) :
    TraceStep w w' := by
  cases hs : ctx.suspendedNodes with
  | nil =>
      rw [executeWith_no_suspended cfg g sub fuel w ctx strategy hs] at h
      exact executeNodes_trace hsub h
  | cons a rest =>
      cases hb : executeBatch cfg g sub ctx.runId w ctx.state (a :: rest) with
      | none =>
          rw [executeWith_resume_none cfg g sub fuel w ctx strategy hs hb] at h
          exact absurd h (by simp)
      | some res =>
          obtain ⟨w₁, s₁, susp⟩ := res
          have hbt : TraceStep w w₁ := executeBatch_trace hsub hb
          cases susp with
          | nil =>
              rw [executeWith_resume_advance cfg g sub fuel w w₁ ctx strategy
                s₁ hs hb] at h
              exact TraceStep.trans
                (TraceStep.trans hbt
                  (TraceStep.of_trace_eq (persistCheckpoint_trace w₁ _)))
                (executeNodes_trace hsub h)
          | cons p ps =>
              rw [executeWith_resume_suspend cfg g sub fuel w w₁ ctx strategy
                s₁ p ps hs hb] at h
              simp only [Option.some.injEq, Prod.mk.injEq] at h
              obtain ⟨hw, -, -⟩ := h
              exact hw ▸ TraceStep.trans hbt (TraceStep.of_trace_eq rfl)

theorem restoreCheckpoint_trace {σ π : Type} (g : GraphDef σ π) (runId : String)
    (init : InitialState σ) (w : World σ) :
    TraceStep w (restoreCheckpoint (π := π) g runId init w).2.1 := by
  unfold restoreCheckpoint
  by_cases hv : isValidCheckpoint (w.storage.load runId) = true
  · rw [if_pos hv]
    cases hcp : w.storage.load runId with
    | none => exact TraceStep.resolve init none w
    | some cp => exact TraceStep.resolve init (some cp.state) w
  · rw [if_neg hv]
    exact TraceStep.resolve init none w

theorem executeInternalModel_trace {σ π : Type} {cfg : EngineCfg σ π}
    {g : GraphDef σ π} {sub : SubRunner σ π} (hsub : SubOk sub) {fuel : Nat}
    {runId : String} {init : σ} {w w' : World σ} {res : Except SuspenseData σ}
    (h : executeInternalModel cfg g sub fuel runId init w = some (w', res)) :
    TraceStep w w' := by
  unfold executeInternalModel createExecutionContext at h
  cases hrc : restoreCheckpoint (π := π) g runId (.value init) w with
  | mk core rest =>
      obtain ⟨w₂, ft⟩ := rest
      rw [hrc] at h
      simp only [] at h
      have hres : TraceStep w w₂ := by
        have hx := restoreCheckpoint_trace (π := π) g runId (.value init) w
        rw [hrc] at hx
        exact hx
      cases hrun : executeWithStrategy cfg g sub fuel w₂
          { runId := runId, state := core.state, currentNodes := core.currentNodes,
            suspendedNodes := core.suspendedNodes } .thrw with
      | none => rw [hrun] at h; exact absurd h (by simp)
      | some r3 =>
          obtain ⟨w₃, ctx₃, out₃⟩ := r3
          have hstep : TraceStep w w₃ :=
            TraceStep.trans hres (executeWith_trace hsub hrun)
          rw [hrun] at h
          cases out₃ with
          | completed =>
              simp only [Option.some.injEq, Prod.mk.injEq] at h
              obtain ⟨hw, -⟩ := h
              exact hw ▸ hstep
          | suspendedHalt => exact absurd h (by simp)
          | raised d =>
              simp only [Option.some.injEq, Prod.mk.injEq] at h
              obtain ⟨hw, -⟩ := h
              exact hw ▸ hstep
          | outOfFuel => exact absurd h (by simp)

theorem subRunnerAt_subOk {σ π : Type} (cfg : EngineCfg σ π) (fuel : Nat) :
    ∀ depth, SubOk (subRunnerAt (π := π) cfg fuel depth) := by
  intro depth
  induction depth with
  | zero => intro child runId init w r h; exact absurd h (by simp [subRunnerAt])
  | succ d ih =>
      intro child runId init w r h
      simp only [subRunnerAt] at h
      obtain ⟨w', res⟩ := r
      exact executeInternalModel_trace ih h

/-! ### Checkpoint lifecycle lemmas -/

/-- A run of the loop that completes (empty frontier reached) leaves no
checkpoint for its run id: the final `storage.delete` is sequenced before the
result is returned. -/
theorem executeNodes_completed_load_none {σ π : Type} {cfg : EngineCfg σ π}
    {g : GraphDef σ π} {sub : SubRunner σ π} {fuel : Nat} {w w' : World σ}
    {ctx ctx' : ExecCtx σ π} {strategy : SuspenseStrategy}
    (h : executeNodesWithStrategy cfg g sub fuel w ctx strategy =
      some (w', ctx', .completed)) :
    w'.storage.load ctx.runId = none := by
  induction fuel generalizing w ctx with
  | zero =>
      cases hc : ctx.currentNodes with
      | nil =>
          rw [executeNodes_empty cfg g sub 0 w ctx strategy hc] at h
          simp only [Option.some.injEq, Prod.mk.injEq] at h
          obtain ⟨hw, -, -⟩ := h
          rw [← hw]
          exact Storage.load_del_self w.storage ctx.runId
      | cons a rest =>
          rw [executeNodes_stuck cfg g sub w ctx strategy hc] at h
          simp only [Option.some.injEq, Prod.mk.injEq] at h
          obtain ⟨-, -, hout⟩ := h
          exact absurd hout (by simp)
  | succ fuel ih =>
      cases hc : ctx.currentNodes with
      | nil =>
          rw [executeNodes_empty cfg g sub (fuel + 1) w ctx strategy hc] at h
          simp only [Option.some.injEq, Prod.mk.injEq] at h
          obtain ⟨hw, -, -⟩ := h
          rw [← hw]
          exact Storage.load_del_self w.storage ctx.runId
      | cons a rest =>
          cases hb : executeBatch cfg g sub ctx.runId w ctx.state (a :: rest) with
          | none =>
              rw [executeNodes_step_none cfg g sub fuel w ctx strategy hc hb] at h
              exact absurd h (by simp)
          | some res =>
              obtain ⟨w₁, s₁, susp⟩ := res
              cases susp with
              | nil =>
                  rw [executeNodes_step_advance cfg g sub fuel w w₁ ctx strategy
                    s₁ hc hb] at h
                  have hx := ih h
                  exact hx
              | cons p ps =>
                  rw [executeNodes_step_suspend cfg g sub fuel w w₁ ctx strategy
                    s₁ p ps hc hb] at h
                  simp only [Option.some.injEq, Prod.mk.injEq] at h
                  obtain ⟨-, -, hout⟩ := h
                  cases strategy <;> exact absurd hout (by simp)

/-- A loop run that re-raises the Suspense signal (`'throw'` mode) has, just
before raising, persisted a checkpoint whose active list is the full frontier
and whose suspended list is the (non-empty) suspended set. -/
theorem executeNodes_raised_persists {σ π : Type} {cfg : EngineCfg σ π}
    {g : GraphDef σ π} {sub : SubRunner σ π} {fuel : Nat} {w w' : World σ}
    {ctx ctx' : ExecCtx σ π} {strategy : SuspenseStrategy} {d : SuspenseData}
    (h : executeNodesWithStrategy cfg g sub fuel w ctx strategy =
      some (w', ctx', .raised d)) :
    d = .subgraphSuspended ∧ ctx'.runId = ctx.runId ∧ ctx'.suspendedNodes ≠ [] ∧
    w'.storage.load ctx.runId = some
      { state := ctx'.state,
        nodeIds := some (ctx'.currentNodes.map (·.id)),
        suspendedNodes := some (ctx'.suspendedNodes.map (·.id)) } := by
  induction fuel generalizing w ctx with
  | zero =>
      cases hc : ctx.currentNodes with
      | nil =>
          rw [executeNodes_empty cfg g sub 0 w ctx strategy hc] at h
          simp only [Option.some.injEq, Prod.mk.injEq] at h
          obtain ⟨-, -, hout⟩ := h
          exact absurd hout (by simp)
      | cons a rest =>
          rw [executeNodes_stuck cfg g sub w ctx strategy hc] at h
          simp only [Option.some.injEq, Prod.mk.injEq] at h
          obtain ⟨-, -, hout⟩ := h
          exact absurd hout (by simp)
  | succ fuel ih =>
      cases hc : ctx.currentNodes with
      | nil =>
          rw [executeNodes_empty cfg g sub (fuel + 1) w ctx strategy hc] at h
          simp only [Option.some.injEq, Prod.mk.injEq] at h
          obtain ⟨-, -, hout⟩ := h
          exact absurd hout (by simp)
      | cons a rest =>
          cases hb : executeBatch cfg g sub ctx.runId w ctx.state (a :: rest) with
          | none =>
              rw [executeNodes_step_none cfg g sub fuel w ctx strategy hc hb] at h
              exact absurd h (by simp)
          | some res =>
              obtain ⟨w₁, s₁, susp⟩ := res
              cases susp with
              | nil =>
                  rw [executeNodes_step_advance cfg g sub fuel w w₁ ctx strategy
                    s₁ hc hb] at h
                  have hx := ih h
                  exact hx
              | cons p ps =>
                  rw [executeNodes_step_suspend cfg g sub fuel w w₁ ctx strategy
                    s₁ p ps hc hb] at h
                  cases strategy with
                  | ret =>
                      simp only [Option.some.injEq, Prod.mk.injEq] at h
                      obtain ⟨-, -, hout⟩ := h
                      exact absurd hout (by simp)
                  | thrw =>
                      simp only [Option.some.injEq, Prod.mk.injEq] at h
                      obtain ⟨hw, hctx, hout⟩ := h
                      refine ⟨by simpa using hout.symm, ?_, ?_, ?_⟩
                      · rw [← hctx]
                      · rw [← hctx]; simp
                      · rw [← hw, ← hctx]
                        exact Storage.load_save_self w₁.storage ctx.runId _

/-- Same as `executeNodes_raised_persists` at the `executeWithStrategy`
entry (the resume path also persists before re-raising). -/
theorem executeWith_raised_persists {σ π : Type} {cfg : EngineCfg σ π}
    {g : GraphDef σ π} {sub : SubRunner σ π} {fuel : Nat} {w w' : World σ}
    {ctx ctx' : ExecCtx σ π} {strategy : SuspenseStrategy} {d : SuspenseData}
    (h : executeWithStrategy cfg g sub fuel w ctx strategy =
      some (w', ctx', .raised d)) :
    d = .subgraphSuspended ∧ ctx'.runId = ctx.runId ∧ ctx'.suspendedNodes ≠ [] ∧
    w'.storage.load ctx.runId = some
      { state := ctx'.state,
        nodeIds := some (ctx'.currentNodes.map (·.id)),
        suspendedNodes := some (ctx'.suspendedNodes.map (·.id)) } := by
  cases hs : ctx.suspendedNodes with
  | nil =>
      rw [executeWith_no_suspended cfg g sub fuel w ctx strategy hs] at h
      exact executeNodes_raised_persists h
  | cons a rest =>
      cases hb : executeBatch cfg g sub ctx.runId w ctx.state (a :: rest) with
      | none =>
          rw [executeWith_resume_none cfg g sub fuel w ctx strategy hs hb] at h
          exact absurd h (by simp)
      | some res =>
          obtain ⟨w₁, s₁, susp⟩ := res
          cases susp with
          | nil =>
              rw [executeWith_resume_advance cfg g sub fuel w w₁ ctx strategy
                s₁ hs hb] at h
              have hx := executeNodes_raised_persists h
              exact hx
          | cons p ps =>
              rw [executeWith_resume_suspend cfg g sub fuel w w₁ ctx strategy
                s₁ p ps hs hb] at h
              cases strategy with
              | ret =>
                  simp only [Option.some.injEq, Prod.mk.injEq] at h
                  obtain ⟨-, -, hout⟩ := h
                  exact absurd hout (by simp)
              | thrw =>
                  simp only [Option.some.injEq, Prod.mk.injEq] at h
                  obtain ⟨hw, hctx, hout⟩ := h
                  refine ⟨by simpa using hout.symm, ?_, ?_, ?_⟩
                  · rw [← hctx]
                  · rw [← hctx]; simp
                  · rw [← hw, ← hctx]
                    exact Storage.load_save_self w₁.storage ctx.runId _

/-- `executeInternal` re-raises only the `subgraph-suspended` Suspense signal,
and only after persisting a checkpoint with a non-empty suspended list for
its (namespaced) run id. -/
theorem executeInternalModel_error_persists {σ π : Type} {cfg : EngineCfg σ π}
    {g : GraphDef σ π} {sub : SubRunner σ π} {fuel : Nat} {runId : String}
    {init : σ} {w w' : World σ} {e : SuspenseData}
    (h : executeInternalModel cfg g sub fuel runId init w = some (w', .error e)) :
    e = .subgraphSuspended ∧
    ∃ cp, w'.storage.load runId = some cp ∧ cp.suspendedNodes.getD [] ≠ [] := by
  unfold executeInternalModel createExecutionContext at h
  cases hrc : restoreCheckpoint (π := π) g runId (.value init) w with
  | mk core rest =>
      obtain ⟨w₂, ft⟩ := rest
      rw [hrc] at h
      simp only [] at h
      cases hrun : executeWithStrategy cfg g sub fuel w₂
          { runId := runId, state := core.state, currentNodes := core.currentNodes,
            suspendedNodes := core.suspendedNodes } .thrw with
      | none => rw [hrun] at h; exact absurd h (by simp)
      | some r3 =>
          obtain ⟨w₃, ctx₃, out₃⟩ := r3
          rw [hrun] at h
          cases out₃ with
          | completed => simp at h
          | suspendedHalt => exact absurd h (by simp)
          | outOfFuel => exact absurd h (by simp)
          | raised d =>
              simp only [Option.some.injEq, Prod.mk.injEq, Except.error.injEq] at h
              obtain ⟨hw, hd⟩ := h
              obtain ⟨hsig, -, hne, hload⟩ := executeWith_raised_persists hrun
              refine ⟨by rw [← hd, hsig], ?_⟩
              refine ⟨_, by rw [← hw]; exact hload, ?_⟩
              simpa using hne

/-- `subRunnerAt` version of `executeInternalModel_error_persists`. -/
theorem subRunnerAt_error_persists {σ π : Type} {cfg : EngineCfg σ π}
    {fuel depth : Nat} {child : GraphDef σ π} {runId : String} {init : σ}
    {w w' : World σ} {e : SuspenseData}
    (h : subRunnerAt cfg fuel depth child runId init w = some (w', .error e)) :
    e = .subgraphSuspended ∧
    ∃ cp, w'.storage.load runId = some cp ∧ cp.suspendedNodes.getD [] ≠ [] := by
  cases depth with
  | zero => exact absurd h (by simp [subRunnerAt])
  | succ d => exact executeInternalModel_error_persists h

/-! ### Successor computation lemmas -/

theorem lookupNode_id {σ π : Type} {g : GraphDef σ π} {id : NodeId} {n : Node σ π}
    (h : lookupNode g id = some n) : n.id = id := by
  have h' : g.nodes.find? (fun m => m.id == id) = some n := h
  have := List.find?_some h'
  simpa using this

theorem mem_findSuccessors_lookup {σ π : Type} {g : GraphDef σ π} {s : σ}
    {nodeId : NodeId} {m : Node σ π} (h : m ∈ findSuccessors g nodeId s) :
    lookupNode g m.id = some m := by
  unfold findSuccessors at h
  obtain ⟨e, -, hres⟩ := List.mem_filterMap.mp h
  unfold resolveEdgeTarget at hres
  have hid := lookupNode_id hres
  rw [← hid] at hres
  exact hres

theorem dedupFrom_subset {σ π : Type} :
    ∀ (seen : List NodeId) (l : List (Node σ π)) (m : Node σ π),
      m ∈ dedupFrom seen l → m ∈ l := by
  intro seen l
  induction l generalizing seen with
  | nil => intro m h; exact absurd h (by simp [dedupFrom])
  | cons n rest ih =>
      intro m h
      unfold dedupFrom at h
      by_cases hn : n.id ∈ seen
      · rw [if_pos hn] at h
        exact List.mem_cons_of_mem n (ih seen m h)
      · rw [if_neg hn] at h
        rcases List.mem_cons.mp h with heq | htail
        · exact heq ▸ List.mem_cons_self n rest
        · exact List.mem_cons_of_mem n (ih _ m htail)

theorem dedupFrom_mem {σ π : Type} {m : Node σ π} :
    ∀ (seen : List NodeId) (l : List (Node σ π)), m ∈ l → m.id ∉ seen →
      (∀ m' ∈ l, m'.id = m.id → m' = m) → m ∈ dedupFrom seen l := by
  intro seen l
  induction l generalizing seen with
  | nil => intro hm; exact absurd hm (by simp)
  | cons n rest ih =>
      intro hm hseen huniq
      unfold dedupFrom
      by_cases hn : n.id ∈ seen
      · rw [if_pos hn]
        rcases List.mem_cons.mp hm with heq | htail
        · exact absurd (heq ▸ hn) hseen
        · exact ih seen htail hseen (fun m' h' => huniq m' (List.mem_cons_of_mem n h'))
      · rw [if_neg hn]
        rcases List.mem_cons.mp hm with heq | htail
        · exact heq ▸ List.mem_cons_self n _
        · by_cases hid : m.id = n.id
          · have : n = m := huniq n (List.mem_cons_self n rest) hid.symm
            exact this ▸ List.mem_cons_self n _
          · refine List.mem_cons_of_mem n (ih (n.id :: seen) htail ?_
              (fun m' h' => huniq m' (List.mem_cons_of_mem n h')))
            simp only [List.mem_cons]
            rintro (h1 | h2)
            · exact hid h1
            · exact hseen h2

theorem dedupFrom_nodup {σ π : Type} :
    ∀ (seen : List NodeId) (l : List (Node σ π)),
      ((dedupFrom seen l).map (·.id)).Nodup ∧
      ∀ m ∈ dedupFrom seen l, m.id ∉ seen := by
  intro seen l
  induction l generalizing seen with
  | nil => exact ⟨by simp [dedupFrom], by simp [dedupFrom]⟩
  | cons n rest ih =>
      unfold dedupFrom
      by_cases hn : n.id ∈ seen
      · rw [if_pos hn]
        exact ih seen
      · rw [if_neg hn]
        obtain ⟨hnodup, hdisj⟩ := ih (n.id :: seen)
        refine ⟨?_, ?_⟩
        · simp only [List.map_cons, List.nodup_cons]
          refine ⟨?_, hnodup⟩
          intro hmem
          obtain ⟨m, hm, hmid⟩ := List.mem_map.mp hmem
          have := hdisj m hm
          simp [hmid] at this
        · intro m hm
          rcases List.mem_cons.mp hm with heq | htail
          · exact heq ▸ hn
          · have := hdisj m htail
            simp only [List.mem_cons] at this
            exact fun hc => this (Or.inr hc)

theorem mem_excludeTerminalNodes {σ π : Type} {l : List (Node σ π)} {m : Node σ π} :
    m ∈ excludeTerminalNodes l ↔ m ∈ l ∧ m.id ≠ "END" := by
  simp [excludeTerminalNodes, List.mem_filter, bne]

/-- Frontier characterisation: a node is in the next frontier iff it is not
`END` and some frontier node has an outgoing edge resolving to it under the
post-batch state. -/
theorem mem_computeNextNodes {σ π : Type} {g : GraphDef σ π}
    {cur : List (Node σ π)} {s : σ} {m : Node σ π} :
    m ∈ computeNextNodes g cur s ↔
      m.id ≠ "END" ∧ ∃ c ∈ cur, m ∈ findSuccessors g c.id s := by
  unfold computeNextNodes deduplicateNodes
  constructor
  · intro h
    obtain ⟨hmem, hne⟩ := mem_excludeTerminalNodes.mp h
    have hflat := dedupFrom_subset [] _ m hmem
    obtain ⟨c, hc, hm⟩ := List.mem_flatMap.mp hflat
    exact ⟨hne, c, hc, hm⟩
  · rintro ⟨hne, c, hc, hm⟩
    refine mem_excludeTerminalNodes.mpr ⟨?_, hne⟩
    refine dedupFrom_mem [] _ (List.mem_flatMap.mpr ⟨c, hc, hm⟩) (by simp) ?_
    intro m' hm' hid
    obtain ⟨c', -, hmc'⟩ := List.mem_flatMap.mp hm'
    have h1 := mem_findSuccessors_lookup hmc'
    have h2 := mem_findSuccessors_lookup hm
    rw [hid] at h1
    rw [h1] at h2
    exact (Option.some.injEq _ _ ▸ h2).symm ▸ rfl

theorem computeNextNodes_nodup {σ π : Type} (g : GraphDef σ π)
    (cur : List (Node σ π)) (s : σ) :
    ((computeNextNodes g cur s).map (·.id)).Nodup := by
  unfold computeNextNodes excludeTerminalNodes deduplicateNodes
  refine List.Nodup.sublist (List.Sublist.map _ (List.filter_sublist _))
    (dedupFrom_nodup [] _).1

theorem computeNextNodes_no_end {σ π : Type} (g : GraphDef σ π)
    (cur : List (Node σ π)) (s : σ) :
    "END" ∉ (computeNextNodes g cur s).map (·.id) := by
  intro h
  obtain ⟨m, hm, hid⟩ := List.mem_map.mp h
  exact (mem_computeNextNodes.mp hm).1 hid

/-! ### Claim C2: initial-state resolution against a valid checkpoint -/

/-- Claim C2: for a run starting with a valid checkpoint present, a resolver
initial-state argument is applied to the checkpoint's state, and a literal
initial-state argument is discarded in favour of the checkpoint's state —
persisted progress is never silently dropped.  (`restoreFromCheckpoint`
feeding `StateManager.resolve` with the checkpoint's state.) -/
theorem resume_initialState_resolution {σ π : Type} (g : GraphDef σ π)
    (runId : String) (init : InitialState σ) (w : World σ) (cp : Checkpoint σ)
    (hload : w.storage.load runId = some cp)
    (hvalid : isValidCheckpoint (some cp) = true) :
    (createExecutionContext (π := π) g runId init w).2.2 = false ∧
    (createExecutionContext (π := π) g runId init w).1.state =
      (match init with
       | .resolver f => f (some cp.state)
       | .value _ => cp.state) := by
  unfold createExecutionContext restoreCheckpoint
  rw [hload, if_pos hvalid]
  cases init with
  | resolver f => exact ⟨rfl, rfl⟩
  | value v => exact ⟨rfl, rfl⟩

/-- Witness for C2 at a concrete checkpoint: a resolver sees the checkpoint
state `5` (yielding `6`), and a literal `99` loses to the checkpoint state. -/
theorem resume_initialState_resolution_witness :
    ((createExecutionContext (π := Int) (.mk [] [] [])
        "r" (.resolver (fun s? => s?.getD 0 + 1))
        ⟨[("r", ⟨5, some ["a"], some []⟩)], []⟩).1.state = 6) ∧
    ((createExecutionContext (π := Int) (.mk [] [] [])
        "r" (.value 99)
        ⟨[("r", ⟨5, some ["a"], some []⟩)], []⟩).1.state = 5) := by
  have h1 := resume_initialState_resolution (π := Int) (.mk [] [] []) "r"
    (.resolver (fun s? => s?.getD 0 + 1))
    ⟨[("r", ⟨5, some ["a"], some []⟩)], []⟩ ⟨5, some ["a"], some []⟩
    (by decide) (by decide)
  have h2 := resume_initialState_resolution (π := Int) (.mk [] [] []) "r"
    (.value 99)
    ⟨[("r", ⟨5, some ["a"], some []⟩)], []⟩ ⟨5, some ["a"], some []⟩
    (by decide) (by decide)
  exact ⟨h1.2, h2.2⟩

/-! ### Claim C3: checkpoint validity -/

/-- A checkpoint whose active list is empty but whose suspended list is
non-empty: the spec calls it valid, the code does not. -/
def cpSuspendedOnly : Checkpoint Int :=
  { state := 0, nodeIds := some [], suspendedNodes := some ["a"] }

/-- Claim C3 counterexample: the claim says a checkpoint is valid iff at
least one of the two node-id lists is non-empty (`specValidCheckpoint`), but
`isValidCheckpoint` only consults the active `nodeIds` list — a checkpoint
with empty `nodeIds` and non-empty `suspendedNodes` is treated as "no
checkpoint". -/
theorem checkpoint_validity_counterexample :
    isValidCheckpoint (some cpSuspendedOnly) = false ∧
    specValidCheckpoint (some cpSuspendedOnly) = true := by
  constructor <;> rfl

/-- Claim C3 (amended): a persisted checkpoint is valid and resumable iff its
ACTIVE node-id list (`nodeIds`) is present and non-empty — the suspended list
is not consulted; any other shape (null, missing active list, empty active
list) is treated as "no checkpoint" and the run starts Fresh. -/
theorem checkpoint_validity_active_only {σ π : Type} (g : GraphDef σ π)
    (runId : String) (init : InitialState σ) (w : World σ)
    (hinvalid : isValidCheckpoint (w.storage.load runId) = false) :
    (∀ cp? : Option (Checkpoint σ),
      isValidCheckpoint cp? = true ↔
        ∃ cp ids, cp? = some cp ∧ cp.nodeIds = some ids ∧ ids ≠ []) ∧
    restoreCheckpoint (π := π) g runId init w =
      ((createFreshExecution g init w).1, (createFreshExecution g init w).2, true) := by
  constructor
  · intro cp?
    cases cp? with
    | none => simp [isValidCheckpoint]
    | some cp =>
        cases hids : cp.nodeIds with
        | none => simp [isValidCheckpoint, hasAtLeastOneNode, hids]
        | some ids =>
            simp only [isValidCheckpoint, hasAtLeastOneNode, hids, Option.isSome_some,
              Bool.true_and, Option.getD_some, decide_eq_true_eq,
              List.length_pos_iff_ne_nil, Option.some.injEq]
            constructor
            · intro h; exact ⟨cp, ids, rfl, hids, h⟩
            · rintro ⟨cp', ids', hcp, hids', hne⟩
              subst hcp
              rw [hids] at hids'
              cases hids'
              exact hne
  · unfold restoreCheckpoint
    rw [if_neg (by rw [hinvalid]; exact Bool.false_ne_true)]

/-- Witness for C3 (amended), at empty storage (no checkpoint → Fresh). -/
theorem checkpoint_validity_active_only_witness :
    (isValidCheckpoint (some cpSuspendedOnly) = true ↔
      ∃ cp ids, some cpSuspendedOnly = some cp ∧ cp.nodeIds = some ids ∧ ids ≠ []) ∧
    restoreCheckpoint (σ := Int) (π := Int) (.mk [] [] []) "r" (.value 0) ⟨[], []⟩ =
      ((createFreshExecution (σ := Int) (π := Int) (.mk [] [] []) (.value 0) ⟨[], []⟩).1,
       (createFreshExecution (σ := Int) (π := Int) (.mk [] [] []) (.value 0) ⟨[], []⟩).2,
       true) := by
  have h := checkpoint_validity_active_only (σ := Int) (π := Int) (.mk [] [] []) "r"
    (.value 0) ⟨[], []⟩ (by decide)
  exact ⟨h.1 (some cpSuspendedOnly), h.2⟩

/-! ### Claim C7: state-middleware onion ordering -/

/-- The terminal action of the state-middleware chain:
`async (ctx) => ctx.resolvedUpdate` — return the resolved partial unchanged. -/
def stateMwTerminal {σ π : Type} : StateMwCtx σ π → π :=
  fun c => c.resolvedUpdate

/-- Outer middleware M1: post-processes the returned partial by adding 1. -/
def mwAddOne : StateMw Int Int := fun _ next => next () + 1

/-- Inner middleware M2: post-processes the returned partial by doubling. -/
def mwTimesTwo : StateMw Int Int := fun _ next => next () * 2

/-- An engine over a single-field `{value: Int}` state (merge keeps the
incoming partial's field) with `M1` registered first (outer) and `M2` second
(inner). -/
def onionCfg : EngineCfg Int Int :=
  { merge := fun _ p => p, stateMw := [mwAddOne, mwTimesTwo] }

/-- The state-middleware context for a raw literal update `{value: 10}`. -/
def onionCtx : StateMwCtx Int Int :=
  { runId := "run", nodeId := some "n", currentState := 0,
    update := .lit 10, resolvedUpdate := 10 }

/-- Claim C7: state middleware composes as an onion around the terminal
"return the resolved partial unchanged": with M1 (outer, +1) registered
first and M2 (inner, ×2) second, the raw update `{value:10}` yields 20 from
M2's chain, 21 from the full chain, and 21 is the partial actually merged
into state — the outer middleware's post-processing is applied last. -/
theorem state_middleware_onion_order :
    composeMiddleware ([] : List (StateMw Int Int)) stateMwTerminal onionCtx = 10 ∧
    composeMiddleware [mwTimesTwo] stateMwTerminal onionCtx = 20 ∧
    composeMiddleware [mwAddOne, mwTimesTwo] stateMwTerminal onionCtx = 21 ∧
    applyStateUpdate onionCfg "run" (some "n") 0 (.lit 10) = 21 ∧
    applyUpdateEmit onionCfg "run" (some "n") 0 ⟨[], []⟩ (.lit 10) =
      (21, ⟨[], [.stateChanged 21]⟩) := by
  refine ⟨rfl, rfl, rfl, rfl, rfl⟩

/-! ### Claim C1: a suspended batch sets the frontier and halts -/

/-- Claim C1: in a batch where at least one node raises the Suspense signal,
each Suspense is caught per node — sibling nodes of the same batch still run
to completion (they appear in the suspense list or emitted their `node:end`)
— the next frontier to resume is exactly the suspended set (the active list
is left untouched: no successors are computed), a checkpoint is persisted,
and the loop halts. -/
theorem suspense_batch_sets_frontier_and_halts {σ π : Type} (cfg : EngineCfg σ π)
    (g : GraphDef σ π) (sub : SubRunner σ π) (fuel : Nat) (w w₁ : World σ)
    (ctx : ExecCtx σ π) (s₁ : σ) (suspenses : List (Node σ π × SuspenseData))
    (hsub : SubOk sub)
    (hbatch : executeBatch cfg g sub ctx.runId w ctx.state ctx.currentNodes =
      some (w₁, s₁, suspenses))
    (hne : suspenses ≠ []) :
    executeNodesWithStrategy cfg g sub (fuel + 1) w ctx .ret =
      some (persistCheckpoint w₁
              { ctx with state := s₁, suspendedNodes := suspenses.map (·.1) },
            { ctx with state := s₁, suspendedNodes := suspenses.map (·.1) },
            .suspendedHalt) ∧
    (∀ n ∈ ctx.currentNodes,
      (∃ d, (n, d) ∈ suspenses) ∨ Ev.nodeEnd n.id ∈ w₁.trace) := by
  cases hc : ctx.currentNodes with
  | nil =>
      rw [hc, executeBatch_nil] at hbatch
      simp only [Option.some.injEq, Prod.mk.injEq] at hbatch
      obtain ⟨-, -, hs⟩ := hbatch
      exact absurd hs.symm hne
  | cons a rest =>
      rw [hc] at hbatch
      cases suspenses with
      | nil => exact absurd rfl hne
      | cons p ps =>
          constructor
          · exact hc ▸ executeNodes_step_suspend cfg g sub fuel w w₁ ctx .ret s₁
              p ps hc hbatch
          · intro n hn
            exact executeBatch_sibling hsub hbatch n hn

/-! ### Claim C5: frontier advance without suspensions -/

/-- Claim C5: in a batch with no suspensions, the next frontier is computed
by evaluating every outgoing edge of every frontier node against the
post-batch merged state, deduplicating targets by node identity and
excluding `END`; the loop continues with this frontier (and `END` is never
scheduled). -/
theorem no_suspense_frontier_advance {σ π : Type} (cfg : EngineCfg σ π)
    (g : GraphDef σ π) (sub : SubRunner σ π) (fuel : Nat)
    (strategy : SuspenseStrategy) (w w₁ : World σ) (ctx : ExecCtx σ π) (s₁ : σ)
    (hbatch : executeBatch cfg g sub ctx.runId w ctx.state ctx.currentNodes =
      some (w₁, s₁, []))
    (hne : ctx.currentNodes ≠ []) :
    (executeNodesWithStrategy cfg g sub (fuel + 1) w ctx strategy =
      executeNodesWithStrategy cfg g sub fuel
        (persistCheckpoint w₁
          { ctx with state := s₁,
                     currentNodes := computeNextNodes g ctx.currentNodes s₁,
                     suspendedNodes := [] })
        { ctx with state := s₁,
                   currentNodes := computeNextNodes g ctx.currentNodes s₁,
                   suspendedNodes := [] } strategy) ∧
    (∀ m, m ∈ computeNextNodes g ctx.currentNodes s₁ ↔
      (m.id ≠ "END" ∧ ∃ c ∈ ctx.currentNodes, m ∈ findSuccessors g c.id s₁)) ∧
    ((computeNextNodes g ctx.currentNodes s₁).map (·.id)).Nodup ∧
    "END" ∉ (computeNextNodes g ctx.currentNodes s₁).map (·.id) := by
  cases hc : ctx.currentNodes with
  | nil => exact absurd hc hne
  | cons a rest =>
      rw [hc] at hbatch
      refine ⟨hc ▸ executeNodes_step_advance cfg g sub fuel w w₁ ctx strategy s₁
        hc hbatch, ?_, computeNextNodes_nodup g _ s₁,
        computeNextNodes_no_end g _ s₁⟩
      intro m
      exact mem_computeNextNodes

/-! ### Claim C6: completion deletes the checkpoint -/

/-- Claim C6: whenever the loop terminates with an empty frontier (`END`
reached or a dead-end node — not an error), the run's checkpoint is deleted
from storage, and the delete is sequenced (awaited) before the invocation's
result: the world returned alongside `.completed` already reflects the
delete, so a load of the run id finds nothing. -/
theorem completion_deletes_checkpoint {σ π : Type} (cfg : EngineCfg σ π)
    (g : GraphDef σ π) (sub : SubRunner σ π) (fuel : Nat)
    (strategy : SuspenseStrategy) :
    (∀ (w : World σ) (ctx : ExecCtx σ π), ctx.currentNodes = [] →
      executeNodesWithStrategy cfg g sub fuel w ctx strategy =
        some ({ w with storage := w.storage.del ctx.runId }, ctx, .completed)) ∧
    (∀ (w w' : World σ) (ctx ctx' : ExecCtx σ π),
      executeNodesWithStrategy cfg g sub fuel w ctx strategy =
        some (w', ctx', .completed) →
      w'.storage.load ctx.runId = none) :=
  ⟨fun w ctx hc => executeNodes_empty cfg g sub fuel w ctx strategy hc,
   fun _ _ _ _ h => executeNodes_completed_load_none h⟩

/-! ### Concrete fixtures used by the witnesses -/

/-- An engine over `σ = π = Int` (one-field state) with no state middleware. -/
def cfg0 : EngineCfg Int Int := { merge := fun _ p => p, stateMw := [] }

/-- A no-op body (like the built-in `START`/`END`). -/
def noBody : NodeBody Int Int := ⟨fun _ => ([], .done)⟩

/-- A body issuing one awaited functional update `s ↦ s + k`. -/
def addBody (k : Int) : NodeBody Int Int :=
  ⟨fun _ => ([⟨.func (fun s => s + k), true⟩], .done)⟩

/-- A body that always raises `suspense(7)`. -/
def suspBody : NodeBody Int Int := ⟨fun _ => ([], .suspend (.payload 7))⟩

/-- A body that suspends while the state is below 10, succeeds otherwise. -/
def gateBody : NodeBody Int Int :=
  ⟨fun s => if s < 10 then ([], .suspend .noData) else ([], .done)⟩

/-- A body issuing two fire-and-forget updates it never awaits. -/
def ffBody : NodeBody Int Int :=
  ⟨fun _ => ([⟨.func (fun s => s + 1), false⟩, ⟨.lit 50, false⟩], .done)⟩

def startNode : Node Int Int := ⟨"START", noBody⟩
def endNode : Node Int Int := ⟨"END", noBody⟩
def aNode : Node Int Int := ⟨"a", addBody 1⟩
def sNode : Node Int Int := ⟨"s", gateBody⟩
def bNode : Node Int Int := ⟨"b", addBody 100⟩
def fNode : Node Int Int := ⟨"f", ffBody⟩
def innerNode : Node Int Int := ⟨"inner", suspBody⟩
def sgNode : Node Int Int := ⟨"sg", noBody⟩
def lvlNode : Node Int Int := ⟨"lvl", noBody⟩

/-- Fan-out/fan-in: `START → {a, s} → b → END`, where `s` suspends below 10. -/
def gFan : GraphDef Int Int := .mk [startNode, endNode, aNode, sNode, bNode]
  [⟨"START", .static "a"⟩, ⟨"START", .static "s"⟩, ⟨"a", .static "b"⟩,
   ⟨"s", .static "b"⟩, ⟨"b", .static "END"⟩] []

/-- `START → f → END` with fire-and-forget updates in `f`. -/
def gLine : GraphDef Int Int := .mk [startNode, endNode, fNode]
  [⟨"START", .static "f"⟩, ⟨"f", .static "END"⟩] []

/-- Innermost tower level: `inner` always suspends. -/
def gT0 : GraphDef Int Int := .mk [startNode, endNode, innerNode]
  [⟨"START", .static "inner"⟩, ⟨"inner", .static "END"⟩] []

/-- Middle tower level: `sg` is a subgraph node bound to `gT0`. -/
def gT1 : GraphDef Int Int := .mk [startNode, endNode, sgNode]
  [⟨"START", .static "sg"⟩, ⟨"sg", .static "END"⟩]
  [⟨"sg", fun s => s, fun c _ => c, gT0⟩]

/-- Outer tower level: `lvl` is a subgraph node bound to `gT1`. -/
def gT2 : GraphDef Int Int := .mk [startNode, endNode, lvlNode]
  [⟨"START", .static "lvl"⟩, ⟨"lvl", .static "END"⟩]
  [⟨"lvl", fun s => s, fun c _ => c, gT1⟩]

/-- Nested runners over `cfg0` with loop fuel 8 and the given depth budget. -/
def subD (d : Nat) : SubRunner Int Int := subRunnerAt cfg0 8 d

/-- Witness for C1: frontier `[a, s]` from state 0 — `a` completes (update to
1, `node:end` emitted), `s` suspends; the loop halts with suspended set
`[s]`, active list untouched, checkpoint persisted. -/
theorem suspense_batch_sets_frontier_and_halts_witness :
    (executeNodesWithStrategy cfg0 gFan (subD 1) 4 ⟨[], []⟩
        ⟨"r", 0, [aNode, sNode], []⟩ .ret =
      some (persistCheckpoint
              ⟨[], [.nodeStart "a", .stateChanged 1, .nodeEnd "a",
                    .nodeStart "s", .nodeSuspense "s" .noData]⟩
              ⟨"r", 1, [aNode, sNode], [sNode]⟩,
            ⟨"r", 1, [aNode, sNode], [sNode]⟩, .suspendedHalt)) ∧
    (∀ n ∈ [aNode, sNode],
      (∃ d, (n, d) ∈ [(sNode, SuspenseData.noData)]) ∨
      Ev.nodeEnd n.id ∈ ([.nodeStart "a", .stateChanged 1, .nodeEnd "a",
        .nodeStart "s", .nodeSuspense "s" .noData] : List (Ev Int))) := by
  have h := suspense_batch_sets_frontier_and_halts cfg0 gFan (subD 1) 3
    ⟨[], []⟩
    ⟨[], [.nodeStart "a", .stateChanged 1, .nodeEnd "a", .nodeStart "s",
          .nodeSuspense "s" .noData]⟩
    ⟨"r", 0, [aNode, sNode], []⟩ 1 [(sNode, .noData)]
    (subRunnerAt_subOk cfg0 8 1) rfl (by simp)
  exact ⟨h.1, h.2⟩

/-- Witness for C5: frontier `[a]` at state 20 — no suspensions, so the loop
advances to the deduplicated, `END`-free successor frontier computed against
the post-batch state 21. -/
theorem no_suspense_frontier_advance_witness :
    (executeNodesWithStrategy cfg0 gFan (subD 1) 5 ⟨[], []⟩
        ⟨"r", 20, [aNode], []⟩ .ret =
      executeNodesWithStrategy cfg0 gFan (subD 1) 4
        (persistCheckpoint ⟨[], [.nodeStart "a", .stateChanged 21, .nodeEnd "a"]⟩
          ⟨"r", 21, computeNextNodes gFan [aNode] 21, []⟩)
        ⟨"r", 21, computeNextNodes gFan [aNode] 21, []⟩ .ret) ∧
    (∀ m, m ∈ computeNextNodes gFan [aNode] 21 ↔
      (m.id ≠ "END" ∧ ∃ c ∈ [aNode], m ∈ findSuccessors gFan c.id 21)) ∧
    ((computeNextNodes gFan [aNode] 21).map (·.id)).Nodup ∧
    "END" ∉ (computeNextNodes gFan [aNode] 21).map (·.id) :=
  no_suspense_frontier_advance cfg0 gFan (subD 1) 4 .ret ⟨[], []⟩
    ⟨[], [.nodeStart "a", .stateChanged 21, .nodeEnd "a"]⟩
    ⟨"r", 20, [aNode], []⟩ 21 rfl (by simp)

/-- Witness for C6: an empty frontier deletes the stored checkpoint before
returning, and a run of frontier `[b]` at state 20 completes with no
checkpoint left for its run id. -/
theorem completion_deletes_checkpoint_witness :
    (executeNodesWithStrategy cfg0 gFan (subD 1) 6
        ⟨[("r", ⟨0, some ["b"], some []⟩)], []⟩ ⟨"r", 5, [], []⟩ .ret =
      some (⟨[], []⟩, ⟨"r", 5, [], []⟩, .completed)) ∧
    ((⟨[], [.nodeStart "b", .stateChanged 120, .nodeEnd "b"]⟩ : World Int).storage.load
      "r" = none) := by
  have h := completion_deletes_checkpoint cfg0 gFan (subD 1) 6 .ret
  constructor
  · exact h.1 ⟨[("r", ⟨0, some ["b"], some []⟩)], []⟩ ⟨"r", 5, [], []⟩ rfl
  · exact h.2 ⟨[], []⟩ ⟨[], [.nodeStart "b", .stateChanged 120, .nodeEnd "b"]⟩
      ⟨"r", 20, [bNode], []⟩ ⟨"r", 120, [], []⟩ rfl

/-! ### Claim C8: the per-invocation pending-updates list -/

/-- The per-invocation `pendingUpdates` list: every `update()` call a body
issues pushes its promise here, awaited by the body or not. -/
def pendingUpdatesOf {σ π : Type} (n : Node σ π) (s : σ) : List (UpdateCall σ π) :=
  (n.body.run s).1

/-- The same update call, with the body awaiting its handle. -/
def UpdateCall.asAwaited {σ π : Type} (c : UpdateCall σ π) : UpdateCall σ π :=
  { c with awaited := true }

/-- The same node, its body awaiting every update it issues. -/
def Node.withAllAwaited {σ π : Type} (n : Node σ π) : Node σ π :=
  { n with body := ⟨fun s => ((n.body.run s).1.map UpdateCall.asAwaited,
                              (n.body.run s).2)⟩ }

theorem runUpdateCalls_map_awaited {σ π : Type} (cfg : EngineCfg σ π)
    (runId : String) (nodeId : NodeId) :
    ∀ (calls : List (UpdateCall σ π)) (s : σ) (w : World σ),
      runUpdateCalls cfg runId nodeId s w (calls.map UpdateCall.asAwaited) =
        runUpdateCalls cfg runId nodeId s w calls := by
  intro calls
  induction calls with
  | nil => intro s w; rfl
  | cons c rest ih =>
      intro s w
      simp only [List.map_cons, runUpdateCalls]
      exact ih _ _

/-- Claim C8: every `update()` issued during one node body invocation —
including fire-and-forget ones the body never awaits — is collected in the
per-invocation pending list and fully settled before the node finishes: the
state the node finishes with is the fold of the whole pending list, the
engine's behaviour is invariant under which updates the body awaited, and
the post-batch state read by successor computation is that settled state. -/
theorem pending_updates_settled_before_finish {σ π : Type} (cfg : EngineCfg σ π)
    (g : GraphDef σ π) (sub : SubRunner σ π) (runId : String) (w : World σ)
    (s : σ) (n : Node σ π) (hord : lookupSub g n.id = none) :
    (∀ w' s' r, executeSingleNode cfg g sub runId w s n = some (w', s', r) →
      s' = (runUpdateCalls cfg runId n.id s (w.emit (.nodeStart n.id))
        (pendingUpdatesOf n s)).1) ∧
    (executeSingleNode cfg g sub runId w s n).map
        (fun p => (p.1, p.2.1, p.2.2.map (fun q => (q.1.id, q.2)))) =
      (executeSingleNode cfg g sub runId w s n.withAllAwaited).map
        (fun p => (p.1, p.2.1, p.2.2.map (fun q => (q.1.id, q.2)))) ∧
    (∀ w₁ s₁ r₁, executeBatch cfg g sub runId w s [n] = some (w₁, s₁, r₁) →
      s₁ = (runUpdateCalls cfg runId n.id s (w.emit (.nodeStart n.id))
        (pendingUpdatesOf n s)).1) := by
  have hord2 : lookupSub g n.withAllAwaited.id = none := hord
  have hsingle : ∀ w' s' r,
      executeSingleNode cfg g sub runId w s n = some (w', s', r) →
      s' = (runUpdateCalls cfg runId n.id s (w.emit (.nodeStart n.id))
        (pendingUpdatesOf n s)).1 := by
    intro w' s' r h
    cases ho : (n.body.run s).2 with
    | done =>
        rw [executeSingleNode_ord_done cfg g sub runId w s n (n.body.run s).1
          hord (by rw [← ho])] at h
        simp only [Option.some.injEq, Prod.mk.injEq] at h
        exact h.2.1.symm
    | suspend d =>
        rw [executeSingleNode_ord_suspend cfg g sub runId w s n (n.body.run s).1
          d hord (by rw [← ho])] at h
        simp only [Option.some.injEq, Prod.mk.injEq] at h
        exact h.2.1.symm
  refine ⟨hsingle, ?_, ?_⟩
  · have hmap : n.withAllAwaited.body.run s =
        ((n.body.run s).1.map UpdateCall.asAwaited, (n.body.run s).2) := rfl
    cases ho : (n.body.run s).2 with
    | done =>
        rw [executeSingleNode_ord_done cfg g sub runId w s n (n.body.run s).1
          hord (by rw [← ho]),
          executeSingleNode_ord_done cfg g sub runId w s n.withAllAwaited
            ((n.body.run s).1.map UpdateCall.asAwaited) hord2
            (by rw [hmap, ho]),
          runUpdateCalls_map_awaited]
        rfl
    | suspend d =>
        rw [executeSingleNode_ord_suspend cfg g sub runId w s n (n.body.run s).1
          d hord (by rw [← ho]),
          executeSingleNode_ord_suspend cfg g sub runId w s n.withAllAwaited
            ((n.body.run s).1.map UpdateCall.asAwaited) d hord2
            (by rw [hmap, ho]),
          runUpdateCalls_map_awaited]
        rfl
  · intro w₁ s₁ r₁ h
    obtain ⟨w₂, s₂, r, ps, h1, h2, -⟩ := executeBatch_cons_inv h
    rw [executeBatch_nil] at h2
    simp only [Option.some.injEq, Prod.mk.injEq] at h2
    obtain ⟨-, hs, -⟩ := h2
    exact hs ▸ hsingle w₂ s₂ r h1

/-- Witness for C8 at the fire-and-forget node `f` (two un-awaited updates:
`s+1` then `{value:50}`): the node finishes with state 50 and behaves exactly
as if both updates were awaited. -/
theorem pending_updates_settled_before_finish_witness :
    ((executeSingleNode cfg0 gLine (subD 1) "r" ⟨[], []⟩ 0 fNode).map
        (fun p => p.2.1) = some 50) ∧
    (executeSingleNode cfg0 gLine (subD 1) "r" ⟨[], []⟩ 0 fNode).map
        (fun p => (p.1, p.2.1, p.2.2.map (fun q => (q.1.id, q.2)))) =
      (executeSingleNode cfg0 gLine (subD 1) "r" ⟨[], []⟩ 0 fNode.withAllAwaited).map
        (fun p => (p.1, p.2.1, p.2.2.map (fun q => (q.1.id, q.2)))) := by
  have h := pending_updates_settled_before_finish cfg0 gLine (subD 1) "r"
    ⟨[], []⟩ 0 fNode rfl
  refine ⟨?_, h.2.1⟩
  have h1 := h.1 ⟨[], [.nodeStart "f", .stateChanged 1, .stateChanged 50,
      .nodeEnd "f"]⟩ 50 none rfl
  rw [show executeSingleNode cfg0 gLine (subD 1) "r" ⟨[], []⟩ 0 fNode =
    some (⟨[], [.nodeStart "f", .stateChanged 1, .stateChanged 50, .nodeEnd "f"]⟩,
      50, none) from rfl]
  rfl

/-! ### Claim C4: subgraph suspension propagation -/

/-- Claim C4: when a subgraph node's nested engine suspends, the nested
invocation has persisted the child checkpoint (non-empty suspended list under
the namespaced child run id) and re-raised the Suspense signal
(`subgraph-suspended`) to the caller; the parent catches it and records the
subgraph node itself as suspended; and, in nested mode, the parent's own
batch handler persists and re-raises in turn — so the propagation is
transitive through arbitrarily nested subgraphs. -/
theorem subgraph_suspense_propagates {σ π : Type} (cfg : EngineCfg σ π)
    (g : GraphDef σ π) (fuel depth : Nat) (runId : String) (w w₁ : World σ)
    (s : σ) (n : Node σ π) (inputMap : σ → σ) (outputMap : σ → σ → π)
    (child : GraphDef σ π) (e : SuspenseData)
    (hl : lookupSub g n.id = some (inputMap, outputMap, child))
    (hchild : subRunnerAt cfg fuel depth child (generateSubgraphRunId runId n.id)
      (inputMap s) (w.emit (.nodeStart n.id)) = some (w₁, .error e)) :
    (∃ cp, w₁.storage.load (generateSubgraphRunId runId n.id) = some cp ∧
      cp.suspendedNodes.getD [] ≠ []) ∧
    e = .subgraphSuspended ∧
    executeSingleNode cfg g (subRunnerAt cfg fuel depth) runId w s n =
      some (w₁.emit (.nodeSuspense n.id e), s, some (n, e)) ∧
    (∀ (w₂ : World σ) (ctx : ExecCtx σ π) (ps : List (Node σ π × SuspenseData)),
      handleBatchResultWithStrategy g w₂ ctx ((n, e) :: ps) .thrw =
        (persistCheckpoint w₂
           { ctx with suspendedNodes := ((n, e) :: ps).map (·.1) },
         { ctx with suspendedNodes := ((n, e) :: ps).map (·.1) },
         .raise .subgraphSuspended)) := by
  obtain ⟨hsig, cp, hload, hne⟩ := subRunnerAt_error_persists hchild
  refine ⟨⟨cp, hload, hne⟩, hsig, ?_, ?_⟩
  · exact executeSingleNode_sub_error cfg g (subRunnerAt cfg fuel depth) runId
      w w₁ s n inputMap outputMap child e hl hchild
  · intro w₂ ctx ps
    rfl

/-- Concrete world after the middle tower level's child run suspends: the
innermost checkpoint is persisted under the doubly namespaced run id. -/
def towerChildWorld : World Int :=
  ⟨[("run:subgraph:lvl:subgraph:sg", ⟨5, some ["inner"], some ["inner"]⟩)],
   [.nodeStart "sg", .stateChanged 5, .nodeStart "START", .nodeEnd "START",
    .nodeStart "inner", .nodeSuspense "inner" (.payload 7)]⟩

/-- Witness for C4 on the tower `gT2 → gT1 → gT0` (innermost node always
suspends): the middle engine's nested invocation errors after persisting the
innermost checkpoint, the middle subgraph node `sg` is recorded suspended,
and the full outer run halts suspended with checkpoints persisted at every
nesting level — propagation is transitive. -/
theorem subgraph_suspense_propagates_witness :
    ((∃ cp, towerChildWorld.storage.load (generateSubgraphRunId "run:subgraph:lvl" "sg") =
        some cp ∧ cp.suspendedNodes.getD [] ≠ []) ∧
     executeSingleNode cfg0 gT1 (subRunnerAt cfg0 8 1) "run:subgraph:lvl"
        ⟨[], []⟩ 5 sgNode =
      some (towerChildWorld.emit (.nodeSuspense "sg" .subgraphSuspended), 5,
            some (sgNode, .subgraphSuspended))) ∧
    (executeModel cfg0 gT2 (subRunnerAt cfg0 8 2) 8 "run" (.value 5)
        ⟨[], []⟩).map (fun r => (r.1.storage, r.2.1.suspendedNodes.map (·.id), r.2.2)) =
      some ([("run", ⟨5, some ["lvl"], some ["lvl"]⟩),
             ("run:subgraph:lvl", ⟨5, some ["sg"], some ["sg"]⟩),
             ("run:subgraph:lvl:subgraph:sg", ⟨5, some ["inner"], some ["inner"]⟩)],
            ["lvl"], .suspendedHalt) := by
  have h := subgraph_suspense_propagates cfg0 gT1 8 1 "run:subgraph:lvl"
    ⟨[], []⟩ towerChildWorld 5 sgNode (fun s => s) (fun c _ => c) gT0
    .subgraphSuspended rfl rfl
  exact ⟨⟨h.1, h.2.2.1⟩, rfl⟩

/-! ### Claim C9: the `onStart` compile callback -/

theorem restoreCheckpoint_invalid {σ π : Type} (g : GraphDef σ π) (runId : String)
    (init : InitialState σ) (w : World σ)
    (hv : isValidCheckpoint (w.storage.load runId) = false) :
    restoreCheckpoint (π := π) g runId init w =
      ((createFreshExecution g init w).1, (createFreshExecution g init w).2, true) := by
  unfold restoreCheckpoint
  rw [if_neg (by rw [hv]; exact Bool.false_ne_true)]

theorem restoreCheckpoint_valid {σ π : Type} (g : GraphDef σ π) (runId : String)
    (init : InitialState σ) (w : World σ) (cp : Checkpoint σ)
    (hcp : w.storage.load runId = some cp)
    (hv : isValidCheckpoint (some cp) = true) :
    restoreCheckpoint (π := π) g runId init w =
      ((restoreFromCheckpoint g cp init w).1,
       (restoreFromCheckpoint g cp init w).2, false) := by
  unfold restoreCheckpoint
  rw [hcp, if_pos hv]

/-- Claim C9: the `onStart` compile callback fires exactly once per
invocation of a run id, only when the run starts Fresh (no valid checkpoint)
and never when resuming, and it fires before the first batch executes: on a
Fresh start the trace delta is the initial state event, then the single
`onStart` firing, then loop events containing no further `onStart`; on a
resume the delta contains no `onStart` at all. -/
theorem onStart_only_on_fresh_start {σ π : Type} (cfg : EngineCfg σ π)
    (g : GraphDef σ π) (sub : SubRunner σ π) (fuel : Nat) (runId : String)
    (init : InitialState σ) (w w' : World σ) (ctx' : ExecCtx σ π)
    (out : LoopOutcome) (hsub : SubOk sub)
    (hrun : executeWithOnStart cfg g sub fuel runId init w = some (w', ctx', out)) :
    (isValidCheckpoint (w.storage.load runId) = false →
      ∃ t, w'.trace = w.trace ++
          Ev.stateChanged ((StateManager.resolve init none w).1) ::
          Ev.onStartCallback :: t ∧
        Ev.onStartCallback ∉ t) ∧
    (isValidCheckpoint (w.storage.load runId) = true →
      ∃ t, w'.trace = w.trace ++ t ∧ Ev.onStartCallback ∉ t) := by
  constructor
  · intro hv
    unfold executeWithOnStart createExecutionContext at hrun
    rw [restoreCheckpoint_invalid g runId init w hv] at hrun
    simp only [] at hrun
    obtain ⟨t, ht, hnot⟩ := executeWith_trace hsub hrun
    refine ⟨t, ?_, hnot⟩
    rw [ht]
    cases init <;>
      simp [createFreshExecution, StateManager.resolve, World.emit]
  · intro hv
    unfold executeWithOnStart createExecutionContext at hrun
    cases hcp : w.storage.load runId with
    | none => rw [hcp] at hv; exact absurd hv (by simp [isValidCheckpoint])
    | some cp =>
        rw [hcp] at hv
        rw [restoreCheckpoint_valid g runId init w cp hcp hv] at hrun
        simp only [Bool.false_eq_true, if_false] at hrun
        have h1 : TraceStep w (restoreFromCheckpoint (π := π) g cp init w).2 :=
          TraceStep.resolve init (some cp.state) w
        exact TraceStep.trans h1 (executeWith_trace hsub hrun)

/-- The world after a Fresh `executeWithOnStart` run of `gLine`: `onStart`
fires once, right after the initial state event and before any batch. -/
def freshRunWorld : World Int :=
  ⟨[], [.stateChanged 0, .onStartCallback, .nodeStart "START", .nodeEnd "START",
        .nodeStart "f", .stateChanged 1, .stateChanged 50, .nodeEnd "f"]⟩

/-- The world after a resuming `executeWithOnStart` run of `gLine` (valid
checkpoint, frontier `[f]`): no `onStart` anywhere. -/
def resumeRunWorld : World Int :=
  ⟨[], [.stateChanged 7, .nodeStart "f", .stateChanged 8, .stateChanged 50,
        .nodeEnd "f"]⟩

/-- Witness for C9: a Fresh run of `gLine` fires `onStart` exactly once,
after the initial state event and before the first batch; the same
invocation against a valid checkpoint never fires it. -/
theorem onStart_only_on_fresh_start_witness :
    (∃ t, freshRunWorld.trace = ([] : List (Ev Int)) ++
        Ev.stateChanged 0 :: Ev.onStartCallback :: t ∧
      Ev.onStartCallback ∉ t) ∧
    (∃ t, resumeRunWorld.trace = ([] : List (Ev Int)) ++ t ∧
      Ev.onStartCallback ∉ t) := by
  have h1 := (onStart_only_on_fresh_start cfg0 gLine (subD 1) 8 "r" (.value 0)
    ⟨[], []⟩ freshRunWorld ⟨"r", 50, [], []⟩ .completed
    (subRunnerAt_subOk cfg0 8 1) rfl).1 (by decide)
  have h2 := (onStart_only_on_fresh_start cfg0 gLine (subD 1) 8 "r" (.value 0)
    ⟨[("r", ⟨7, some ["f"], some []⟩)], []⟩ resumeRunWorld ⟨"r", 50, [], []⟩
    .completed (subRunnerAt_subOk cfg0 8 1) rfl).2 (by decide)
  exact ⟨h1, h2⟩

/-! ### Claim C10: suspended checkpoints keep the full frontier -/

theorem runUpdateCalls_trace_delta {σ π : Type} (cfg : EngineCfg σ π)
    (rid : String) (nid : NodeId) :
    ∀ (calls : List (UpdateCall σ π)) (s : σ) (w : World σ),
      ∃ t, (runUpdateCalls cfg rid nid s w calls).2.trace = w.trace ++ t ∧
        ∀ e ∈ t, ∃ x, e = Ev.stateChanged x := by
  intro calls
  induction calls with
  | nil => intro s w; exact ⟨[], by simp [runUpdateCalls], by simp⟩
  | cons c rest ih =>
      intro s w
      obtain ⟨t, ht, hall⟩ := ih (applyStateUpdate cfg rid (some nid) s c.upd)
        (w.emit (.stateChanged (applyStateUpdate cfg rid (some nid) s c.upd)))
      refine ⟨Ev.stateChanged (applyStateUpdate cfg rid (some nid) s c.upd) :: t,
        ?_, ?_⟩
      · simp only [runUpdateCalls, applyUpdateEmit]
        rw [ht]
        simp [World.emit]
      · rintro e he
        rcases List.mem_cons.mp he with rfl | hmem
        · exact ⟨_, rfl⟩
        · exact hall e hmem

/-- An ordinary (non-subgraph) node only contributes its own `node:start`
event: every `node:start` in the resulting trace was already there or names
the node itself. -/
theorem executeSingleNode_ord_starts {σ π : Type} {cfg : EngineCfg σ π}
    {g : GraphDef σ π} {sub : SubRunner σ π} {rid : String} {w w₁ : World σ}
    {s s₁ : σ} {n : Node σ π} {r : Option (Node σ π × SuspenseData)}
    (hord : lookupSub g n.id = none)
    (h : executeSingleNode cfg g sub rid w s n = some (w₁, s₁, r)) :
    ∀ id, Ev.nodeStart id ∈ w₁.trace → Ev.nodeStart id ∈ w.trace ∨ id = n.id := by
  obtain ⟨t, ht, hall⟩ := runUpdateCalls_trace_delta cfg rid n.id
    (n.body.run s).1 s (w.emit (.nodeStart n.id))
  have main : ∀ (ev : Ev σ) (id : NodeId), (ev = Ev.nodeEnd n.id ∨
      ∃ d, ev = Ev.nodeSuspense n.id d) →
      Ev.nodeStart id ∈ ((runUpdateCalls cfg rid n.id s (w.emit (.nodeStart n.id))
        (n.body.run s).1).2.emit ev).trace →
      Ev.nodeStart id ∈ w.trace ∨ id = n.id := by
    intro ev id hev hid
    have htr : ((runUpdateCalls cfg rid n.id s (w.emit (.nodeStart n.id))
        (n.body.run s).1).2.emit ev).trace =
        ((w.trace ++ [Ev.nodeStart n.id]) ++ t) ++ [ev] := by
      show (runUpdateCalls cfg rid n.id s (w.emit (.nodeStart n.id))
        (n.body.run s).1).2.trace ++ [ev] = _
      rw [ht]
      rfl
    rw [htr] at hid
    rcases List.mem_append.mp hid with hid | hid
    · rcases List.mem_append.mp hid with hid | hid
      · rcases List.mem_append.mp hid with hid | hid
        · exact Or.inl hid
        · right
          simpa using hid
      · obtain ⟨x, hx⟩ := hall _ hid
        exact absurd hx (by simp)
    · have hev2 : Ev.nodeStart id = ev := by simpa using hid
      rcases hev with hev | ⟨d, hev⟩ <;> rw [hev] at hev2 <;>
        exact absurd hev2 (by simp)
  cases ho : (n.body.run s).2 with
  | done =>
      rw [executeSingleNode_ord_done cfg g sub rid w s n (n.body.run s).1
        hord (by rw [← ho])] at h
      simp only [Option.some.injEq, Prod.mk.injEq] at h
      obtain ⟨hw, -, -⟩ := h
      intro id hid
      exact main (Ev.nodeEnd n.id) id (Or.inl rfl) (hw ▸ hid)
  | suspend d =>
      rw [executeSingleNode_ord_suspend cfg g sub rid w s n (n.body.run s).1
        d hord (by rw [← ho])] at h
      simp only [Option.some.injEq, Prod.mk.injEq] at h
      obtain ⟨hw, -, -⟩ := h
      intro id hid
      exact main (Ev.nodeSuspense n.id d) id (Or.inr ⟨d, rfl⟩) (hw ▸ hid)

/-- A batch of ordinary nodes only starts its own nodes. -/
theorem executeBatch_ord_starts {σ π : Type} {cfg : EngineCfg σ π}
    {g : GraphDef σ π} {sub : SubRunner σ π} {rid : String} :
    ∀ (nodes : List (Node σ π)) (w w' : World σ) (s s' : σ)
      (susp : List (Node σ π × SuspenseData)),
      (∀ n ∈ nodes, lookupSub g n.id = none) →
      executeBatch cfg g sub rid w s nodes = some (w', s', susp) →
      ∀ id, Ev.nodeStart id ∈ w'.trace →
        Ev.nodeStart id ∈ w.trace ∨ id ∈ nodes.map (·.id) := by
  intro nodes
  induction nodes with
  | nil =>
      intro w w' s s' susp _ h id hid
      rw [executeBatch_nil] at h
      simp only [Option.some.injEq, Prod.mk.injEq] at h
      obtain ⟨hw, -, -⟩ := h
      exact Or.inl (hw ▸ hid)
  | cons n rest ih =>
      intro w w' s s' susp hords h id hid
      obtain ⟨w₁, s₁, r, ps, h1, h2, -⟩ := executeBatch_cons_inv h
      rcases ih w₁ w' s₁ s' ps
          (fun m hm => hords m (List.mem_cons_of_mem n hm)) h2 id hid with
        hmem | htail
      · rcases executeSingleNode_ord_starts (hords n (List.mem_cons_self n rest))
            h1 id hmem with hw | hn
        · exact Or.inl hw
        · exact Or.inr (by simp [hn])
      · exact Or.inr (List.mem_cons_of_mem _ htail)

/-- Claim C10: on suspension the persisted checkpoint's active list is the
ENTIRE frontier of the suspending batch (completed siblings included), its
suspended list the suspended set; and a successful resume of the suspended
set derives the next frontier from the restored active list (so successors
of the completed siblings are found at resume time) while re-executing only
the suspended nodes themselves. -/
theorem suspended_checkpoint_full_frontier_resume {σ π : Type}
    (cfg : EngineCfg σ π) (g : GraphDef σ π) (sub : SubRunner σ π) :
    (∀ (fuel : Nat) (w w₁ : World σ) (ctx : ExecCtx σ π) (s₁ : σ)
      (p : Node σ π × SuspenseData) (ps : List (Node σ π × SuspenseData)),
      executeBatch cfg g sub ctx.runId w ctx.state ctx.currentNodes =
        some (w₁, s₁, p :: ps) →
      ∃ w₂, executeNodesWithStrategy cfg g sub (fuel + 1) w ctx .ret =
          some (w₂,
            ⟨ctx.runId, s₁, ctx.currentNodes, (p :: ps).map (·.1)⟩,
            .suspendedHalt) ∧
        w₂.storage.load ctx.runId = some
          { state := s₁,
            nodeIds := some (ctx.currentNodes.map (·.id)),
            suspendedNodes := some (((p :: ps).map (·.1)).map (·.id)) }) ∧
    (∀ (fuel : Nat) (strategy : SuspenseStrategy) (w w₁ : World σ)
      (ctx : ExecCtx σ π) (s₁ : σ) (a : Node σ π) (rest : List (Node σ π)),
      ctx.suspendedNodes = a :: rest →
      (∀ n ∈ ctx.suspendedNodes, lookupSub g n.id = none) →
      executeBatch cfg g sub ctx.runId w ctx.state ctx.suspendedNodes =
        some (w₁, s₁, []) →
      (executeWithStrategy cfg g sub fuel w ctx strategy =
        executeNodesWithStrategy cfg g sub fuel
          (persistCheckpoint w₁
            { ctx with state := s₁,
                       currentNodes := computeNextNodes g ctx.currentNodes s₁,
                       suspendedNodes := [] })
          { ctx with state := s₁,
                     currentNodes := computeNextNodes g ctx.currentNodes s₁,
                     suspendedNodes := [] } strategy) ∧
      (∀ id, Ev.nodeStart id ∈ w₁.trace →
        Ev.nodeStart id ∈ w.trace ∨ id ∈ ctx.suspendedNodes.map (·.id))) := by
  constructor
  · intro fuel w w₁ ctx s₁ p ps hbatch
    cases hc : ctx.currentNodes with
    | nil =>
        rw [hc, executeBatch_nil] at hbatch
        simp only [Option.some.injEq, Prod.mk.injEq] at hbatch
        obtain ⟨-, -, hs⟩ := hbatch
        exact absurd hs (by simp)
    | cons a rest =>
        rw [hc] at hbatch
        refine ⟨persistCheckpoint w₁
          { ctx with state := s₁, suspendedNodes := (p :: ps).map (·.1) }, ?_, ?_⟩
        · exact hc ▸ executeNodes_step_suspend cfg g sub fuel w w₁ ctx .ret s₁
            p ps hc hbatch
        · rw [show ctx.currentNodes = a :: rest from hc]
          exact Storage.load_save_self w₁.storage ctx.runId _
  · intro fuel strategy w w₁ ctx s₁ a rest hs hords hbatch
    rw [hs] at hbatch
    constructor
    · exact executeWith_resume_advance cfg g sub fuel w w₁ ctx strategy s₁ hs
        hbatch
    · intro id hid
      exact executeBatch_ord_starts ctx.suspendedNodes w w₁ ctx.state s₁ []
        hords (by rw [hs]; exact hbatch) id hid

/-- Witness for C10 on `gFan`: the suspending batch `[a, s]` persists active
`["a","s"]` (the completed sibling `a` included) with suspended `["s"]`; the
resume of the restored context re-executes only `s` (its `node:start` is the
only one emitted) and derives the next frontier from the restored active
list `[a, s]`. -/
theorem suspended_checkpoint_full_frontier_resume_witness :
    (∃ w₂, executeNodesWithStrategy cfg0 gFan (subD 1) 4 ⟨[], []⟩
        ⟨"r", 0, [aNode, sNode], []⟩ .ret =
        some (w₂, ⟨"r", 1, [aNode, sNode], [sNode]⟩, .suspendedHalt) ∧
      w₂.storage.load "r" =
        some ⟨1, some ["a", "s"], some ["s"]⟩) ∧
    ((executeWithStrategy cfg0 gFan (subD 1) 4 ⟨[], []⟩
        ⟨"r", 20, [aNode, sNode], [sNode]⟩ .ret =
      executeNodesWithStrategy cfg0 gFan (subD 1) 4
        (persistCheckpoint ⟨[], [.nodeStart "s", .nodeEnd "s"]⟩
          ⟨"r", 20, computeNextNodes gFan [aNode, sNode] 20, []⟩)
        ⟨"r", 20, computeNextNodes gFan [aNode, sNode] 20, []⟩ .ret) ∧
    (∀ id, Ev.nodeStart id ∈ ([.nodeStart "s", .nodeEnd "s"] : List (Ev Int)) →
      Ev.nodeStart id ∈ ([] : List (Ev Int)) ∨ id ∈ ["s"])) := by
  have h := suspended_checkpoint_full_frontier_resume cfg0 gFan (subD 1)
  constructor
  · exact h.1 3 ⟨[], []⟩
      ⟨[], [.nodeStart "a", .stateChanged 1, .nodeEnd "a", .nodeStart "s",
            .nodeSuspense "s" .noData]⟩
      ⟨"r", 0, [aNode, sNode], []⟩ 1 (sNode, .noData) [] rfl
  · have h2 := h.2 4 .ret ⟨[], []⟩ ⟨[], [.nodeStart "s", .nodeEnd "s"]⟩
      ⟨"r", 20, [aNode, sNode], [sNode]⟩ 20 sNode [] rfl
      (by intro n hn
          simp only [List.mem_singleton] at hn
          rw [hn]
          rfl) rfl
    exact h2

end GraphSDK
